import Mathlib

/- `Batteries` marks rational arithmetic `@[irreducible]`, which blocks
`decide`-style evaluation of the exact-decimal confidence and fuzzy-score
values; restore the definitional behaviour locally. -/
attribute [local semireducible] Rat.mul Rat.inv Rat.add Rat.sub

/-!
Verification of the document-processing and knowledge-extraction pipeline of
the TexteVerarbeiten repository.

The Python sources are shallowly embedded: text is `List Char`, Python `int`
is `Nat` (all quantities in the embedded code are non-negative; wherever a
Python subtraction could go below zero the surrounding code's comparisons are
shown to agree with truncated subtraction), floats with exact decimal values
(engine confidences, fuzzy-match scores) are `ℚ`, fallible operations return
`Option`/`Except`, and the file system is an explicit association list.

Embedded components and their sources:
* `Chunking`   — src/text/chunking.py (`AdaptiveTextChunker`)
* `Dispatcher` — src/core/dispatcher.py (`PDFDispatcher`)
* `Formulas`   — src/formulas/extract.py, src/formulas/index.py,
                 src/formulas/search.py
* `Duplicates` — src/analysis/duplicates.py
-/

namespace Py

/-- Python `str.isspace` / `\s` class for the ASCII range (the embedded
corpus texts are ASCII; Python additionally strips some Unicode whitespace
which does not occur here). Covers space, tab, newline, carriage return,
vertical tab and form feed. -/
def isSpace (c : Char) : Bool :=
  c = ' ' || c = '\t' || c = '\n' || c = '\r' || c = '\x0b' || c = '\x0c'

/-- Python `str.lstrip` with a character predicate. -/
def lstrip (p : Char → Bool) (l : List Char) : List Char := l.dropWhile p

/-- Python `str.rstrip` with a character predicate. -/
def rstrip (p : Char → Bool) (l : List Char) : List Char :=
  (l.reverse.dropWhile p).reverse

/-- Python `str.strip` with a character predicate. -/
def strip (p : Char → Bool) (l : List Char) : List Char := rstrip p (lstrip p l)

/-- `s.strip()` (whitespace strip). -/
def stripWs (l : List Char) : List Char := strip isSpace l

/-- `s.strip("\n")`. -/
def stripNl (l : List Char) : List Char := strip (· = '\n') l

/-- Python slice `s[a:b]` for non-negative indices. -/
def slice (l : List Char) (a b : Nat) : List Char := (l.drop a).take (b - a)

/-- Python `s.find(sub)` scanning from index `i`: first index at which `sub`
occurs, `none` for Python's `-1`. -/
def findFrom (sub : List Char) : List Char → Nat → Option Nat
  | [], i => if sub.isPrefixOf [] then some i else none
  | c :: t, i =>
    if sub.isPrefixOf (c :: t) then some i else findFrom sub t (i + 1)

/-- Python `s.find(sub)`. -/
def findSub (l sub : List Char) : Option Nat := findFrom sub l 0

/-- Helper for `rfindIn`: try candidate start positions `a + n - 1, …, a`. -/
def rfindAux (l sub : List Char) (a b : Nat) : Nat → Option Nat
  | 0 => none
  | n + 1 =>
    let j := a + n
    if j + sub.length ≤ b && sub.isPrefixOf (l.drop j) then some j
    else rfindAux l sub a b n

/-- Python `s.rfind(sub, a, b)`: largest `j` with `a ≤ j`,
`j + len(sub) ≤ b` and `sub` occurring at `j`; `none` for `-1`. -/
def rfindIn (l sub : List Char) (a b : Nat) : Option Nat :=
  rfindAux l sub a b (b - a)

/-- Python `text.replace("\r\n", "\n")` (left-to-right, non-overlapping). -/
def replaceCRLF : List Char → List Char
  | [] => []
  | '\r' :: '\n' :: rest => '\n' :: replaceCRLF rest
  | c :: rest => c :: replaceCRLF rest

end Py

namespace Chunking

open Py

/-- `Chunk` dataclass of src/text/chunking.py. The `start`/`end` fields keep
the source's names (`end` is `end_` because `end` is reserved in Lean). -/
structure Chunk where
  text : List Char
  index : Nat
  start : Nat
  end_ : Nat
  deriving Repr, DecidableEq

/-- The configuration fields of `AdaptiveTextChunker` (values as stored on
the instance, i.e. after `__init__` ran). -/
structure Chunker where
  base_chunk_size : Nat
  chunk_overlap : Nat
  max_chunk_size : Nat
  large_document_threshold : Nat
  target_chunk_count : Nat
  min_chunk_size : Nat
  deriving Repr, DecidableEq

/-- `AdaptiveTextChunker.__init__`: validation (`ValueError` becomes `none`;
a negative `chunk_overlap` cannot be represented in `Nat`, and
`base_chunk_size = 0` covers Python's `base_chunk_size <= 0`) and the
normalisation `target = max 1 target`, `min = max 1 min`. -/
def mkChunker (base_chunk_size chunk_overlap max_chunk_size
    large_document_threshold target_chunk_count min_chunk_size : Nat) :
    Option Chunker :=
  if base_chunk_size = 0 then none
  else if max_chunk_size < base_chunk_size then none
  else some
    { base_chunk_size := base_chunk_size
      chunk_overlap := chunk_overlap
      max_chunk_size := max_chunk_size
      large_document_threshold := large_document_threshold
      target_chunk_count := max 1 target_chunk_count
      min_chunk_size := max 1 min_chunk_size }

/-- `AdaptiveTextChunker._determine_chunk_size`. `int(length / target)` on
non-negative operands is floor division, i.e. `Nat` division. -/
def determineChunkSize (cfg : Chunker) (documentLength : Nat) : Nat :=
  if documentLength < cfg.large_document_threshold then cfg.base_chunk_size
  else
    let suggested := max cfg.base_chunk_size
      (min cfg.max_chunk_size (documentLength / cfg.target_chunk_count))
    min cfg.max_chunk_size (max cfg.base_chunk_size suggested)

/-- The split-token priority list of `_find_split_point`. -/
def splitTokens : List (List Char) :=
  [['\n', '\n'], ['\n'], ['.', ' '], ['.'], [' ']]

/-- Inner loop of `AdaptiveTextChunker._find_split_point` over the token
list: `pos ≥ start` always holds for `rfind(tok, start, window_end)`, so
Python's `pos - start >= min_chunk_size` is the `Nat` comparison. -/
def findSplitAux (minChunk : Nat) (text : List Char) (start window_end : Nat) :
    List (List Char) → Nat
  | [] => window_end
  | tok :: toks =>
    match rfindIn text tok start window_end with
    | some pos =>
      if minChunk ≤ pos - start then pos + tok.length
      else findSplitAux minChunk text start window_end toks
    | none => findSplitAux minChunk text start window_end toks

/-- `AdaptiveTextChunker._find_split_point`. -/
def findSplitPoint (minChunk : Nat) (text : List Char) (start window_end : Nat) :
    Nat :=
  findSplitAux minChunk text start window_end splitTokens

/-- The `__init__` invariant needed below: `base_chunk_size` positive and
`max_chunk_size >= base_chunk_size`. -/
def Chunker.Valid (cfg : Chunker) : Prop :=
  0 < cfg.base_chunk_size ∧ cfg.base_chunk_size ≤ cfg.max_chunk_size

theorem mkChunker_valid {b o m l t mi : Nat} {cfg : Chunker}
    (h : mkChunker b o m l t mi = some cfg) : cfg.Valid := by
  unfold mkChunker at h
  split at h
  · cases h
  · split at h
    · cases h
    · cases h
      constructor <;> simp_all <;> omega

/-- The window end `min(length, start + chunk_size)` of one loop iteration
of `AdaptiveTextChunker.chunk`. -/
def windowEnd (chunkSize : Nat) (text : List Char) (start : Nat) : Nat :=
  min text.length (start + chunkSize)

/-- The split point of one loop iteration. -/
def splitEnd (chunkSize minChunk : Nat) (text : List Char) (start : Nat) : Nat :=
  findSplitPoint minChunk text start (windowEnd chunkSize text start)

/-- `raw_chunk = normalized[start:split_end]`. -/
def rawChunk (chunkSize minChunk : Nat) (text : List Char) (start : Nat) :
    List Char :=
  slice text start (splitEnd chunkSize minChunk text start)

/-- The strip bookkeeping of one iteration: returns
`(chunk_start, chunk_end, stripped_chunk)` as they stand after the
`if chunk_end < chunk_start:` repair branch (but before the final
`stripped_chunk.strip()`).  In `Nat`, `split_end - trailing_ws` never
truncates because `trailing_ws ≤ len(raw) ≤ split_end`. -/
def preStrip (raw : List Char) (start split_end : Nat) : Nat × Nat × List Char :=
  let stripped0 := stripNl raw
  let leading_ws := raw.length - (lstrip (· = '\n') raw).length
  let trailing_ws := raw.length - (rstrip (· = '\n') raw).length
  let chunk_start0 := start + leading_ws
  let chunk_end0 := split_end - trailing_ws
  if chunk_end0 < chunk_start0 then (start, split_end, stripWs raw)
  else (chunk_start0, chunk_end0, stripped0)

/-- The emitted chunk data `(stripped_chunk, chunk_start, chunk_end)` of one
iteration, `none` when `stripped_chunk` is empty (no chunk appended).
`relative_start = raw_chunk.find(stripped_chunk)`; Python's `-1` is the
`none` case, in which the pre-computed boundaries are kept. -/
def emitData (raw : List Char) (start split_end : Nat) :
    Option (List Char × Nat × Nat) :=
  let pre := preStrip raw start split_end
  let stripped := stripWs pre.2.2
  if stripped.isEmpty then none
  else
    match findSub raw stripped with
    | some rel => some (stripped, start + rel, start + rel + stripped.length)
    | none => some (stripped, pre.1, pre.2.1)

/-- The value of the `chunk_end` variable at the bottom of one iteration
(used for the `next_start` computation). -/
def chunkEndAfter (raw : List Char) (start split_end : Nat) : Nat :=
  match emitData raw start split_end with
  | some (_, _, b) => b
  | none => (preStrip raw start split_end).2.1

/-- `next_start = max(chunk_end - overlap, split_end - overlap)`, with the
`if next_start <= start: next_start = split_end` guard.  Python note: the
subtractions may be negative in Python, but a negative value is `≤ start`
and triggers the guard in both semantics, so truncated `Nat` subtraction
agrees with the source. -/
def nextStart (overlap start split_end chunk_end : Nat) : Nat :=
  let ns0 := max (chunk_end - overlap) (split_end - overlap)
  if ns0 ≤ start then split_end else ns0

/-- Soundness of `rfindAux`: a hit lies in `[a, b - len sub]` and matches. -/
theorem rfindAux_some {l sub : List Char} {a b n j : Nat}
    (h : rfindAux l sub a b n = some j) :
    a ≤ j ∧ j + sub.length ≤ b ∧ sub.isPrefixOf (l.drop j) := by
  induction n with
  | zero => simp [rfindAux] at h
  | succ n ih =>
    rw [rfindAux] at h
    by_cases hc : (a + n + sub.length ≤ b && sub.isPrefixOf (l.drop (a + n))) = true
    · rw [if_pos hc] at h
      cases h
      simp only [Bool.and_eq_true, decide_eq_true_eq] at hc
      exact ⟨by omega, hc.1, hc.2⟩
    · rw [if_neg hc] at h
      exact ih h

/-- Soundness of `rfindIn`. -/
theorem rfindIn_some {l sub : List Char} {a b j : Nat}
    (h : rfindIn l sub a b = some j) :
    a ≤ j ∧ j + sub.length ≤ b ∧ sub.isPrefixOf (l.drop j) :=
  rfindAux_some h

/-- The split point lies strictly beyond `start` whenever the window is
non-empty (all split tokens are non-empty). -/
theorem findSplitAux_gt {minChunk : Nat} {text : List Char} {start window_end : Nat}
    (hwin : start < window_end) :
    ∀ toks : List (List Char), (∀ t ∈ toks, t ≠ []) →
      start < findSplitAux minChunk text start window_end toks := by
  intro toks htoks
  induction toks with
  | nil => simpa [findSplitAux] using hwin
  | cons tok toks ih =>
    have htok : tok ≠ [] := htoks tok (by simp)
    have hrest := ih (fun t ht => htoks t (by simp [ht]))
    rw [findSplitAux]
    cases hfind : rfindIn text tok start window_end with
    | none => exact hrest
    | some pos =>
      dsimp only
      by_cases hmin : minChunk ≤ pos - start
      · rw [if_pos hmin]
        have hpos := (rfindIn_some hfind).1
        have : 0 < tok.length := List.length_pos.mpr htok
        omega
      · rw [if_neg hmin]
        exact hrest

/-- The split point stays within the window (hence within the text). -/
theorem findSplitAux_le {minChunk : Nat} {text : List Char} {start window_end : Nat} :
    ∀ toks : List (List Char),
      findSplitAux minChunk text start window_end toks ≤ window_end := by
  intro toks
  induction toks with
  | nil => simp [findSplitAux]
  | cons tok toks ih =>
    rw [findSplitAux]
    cases hfind : rfindIn text tok start window_end with
    | none => exact ih
    | some pos =>
      dsimp only
      by_cases hmin : minChunk ≤ pos - start
      · rw [if_pos hmin]
        exact (rfindIn_some hfind).2.1
      · rw [if_neg hmin]
        exact ih

theorem splitEnd_gt {chunkSize minChunk : Nat} {text : List Char} {start : Nat}
    (hcs : 0 < chunkSize) (hlt : start < text.length) :
    start < splitEnd chunkSize minChunk text start := by
  have hwin : start < windowEnd chunkSize text start := by
    unfold windowEnd; omega
  refine findSplitAux_gt hwin splitTokens ?_
  intro t ht
  simp only [splitTokens, List.mem_cons] at ht
  rcases ht with h | h | h | h | h | h <;> simp_all

theorem splitEnd_le_windowEnd {chunkSize minChunk : Nat} {text : List Char}
    {start : Nat} :
    splitEnd chunkSize minChunk text start ≤ windowEnd chunkSize text start :=
  findSplitAux_le splitTokens

theorem splitEnd_le_length {chunkSize minChunk : Nat} {text : List Char}
    {start : Nat} :
    splitEnd chunkSize minChunk text start ≤ text.length :=
  le_trans splitEnd_le_windowEnd (Nat.min_le_left _ _)

theorem nextStart_gt {overlap start split_end chunk_end : Nat}
    (h : start < split_end) :
    start < nextStart overlap start split_end chunk_end := by
  simp only [nextStart]
  split <;> omega

/-- The window start for the next iteration, in terms of the current one. -/
def nextWindowStart (chunkSize overlap minChunk : Nat) (text : List Char)
    (start : Nat) : Nat :=
  nextStart overlap start (splitEnd chunkSize minChunk text start)
    (chunkEndAfter (rawChunk chunkSize minChunk text start) start
      (splitEnd chunkSize minChunk text start))

/-- The main `while` loop of `AdaptiveTextChunker.chunk`, as a structural
recursion on a fuel counter.  One unit of fuel is consumed per iteration;
since the window start strictly advances (`nextStart_gt`), at most
`len(text) - start` iterations remain, so the fuel `len(text)` used by
`chunk` below never runs out (`chunkLoop_fuel_irrel` proves the result does
not depend on any adequate fuel): the `fuel = 0` branch is unreachable from
`chunk` and the recursion is exactly the source loop. -/
def chunkLoop (chunkSize overlap minChunk : Nat) (text : List Char) :
    Nat → Nat → Nat → List Chunk
  | 0, _, _ => []
  | fuel + 1, start, index =>
    if start < text.length then
      let se := splitEnd chunkSize minChunk text start
      let raw := rawChunk chunkSize minChunk text start
      let ns := nextWindowStart chunkSize overlap minChunk text start
      match emitData raw start se with
      | some (t, a, b) =>
        { text := t, index := index, start := a, end_ := b } ::
          (if se < text.length then
            chunkLoop chunkSize overlap minChunk text fuel ns (index + 1)
          else [])
      | none =>
        if se < text.length then
          chunkLoop chunkSize overlap minChunk text fuel ns index
        else []
    else []

/-- `AdaptiveTextChunker.chunk`. -/
def chunk (cfg : Chunker) (text : List Char) : List Chunk :=
  let normalized := replaceCRLF text
  if (stripWs normalized).isEmpty then []
  else
    let chunk_size := determineChunkSize cfg normalized.length
    let overlap := min cfg.chunk_overlap (max 0 (chunk_size / 3))
    chunkLoop chunk_size overlap cfg.min_chunk_size normalized
      normalized.length 0 0

end Chunking

namespace Py

theorem lstrip_of_all {p : Char → Bool} {l : List Char}
    (h : ∀ c ∈ l, p c = true) : lstrip p l = [] := by
  induction l with
  | nil => rfl
  | cons c t ih =>
    have hc := h c (by simp)
    simp only [lstrip, List.dropWhile_cons, hc, if_true]
    exact ih (fun d hd => h d (by simp [hd]))

theorem lstrip_append_of_all {p : Char → Bool} {u x : List Char}
    (h : ∀ c ∈ u, p c = true) : lstrip p (u ++ x) = lstrip p x := by
  induction u with
  | nil => rfl
  | cons c t ih =>
    have hc := h c (by simp)
    simp only [lstrip, List.cons_append, List.dropWhile_cons, hc, if_true]
    exact ih (fun d hd => h d (by simp [hd]))

theorem lstrip_cons_of_not {p : Char → Bool} {c : Char} {t : List Char}
    (h : p c = false) : lstrip p (c :: t) = c :: t := by
  simp [lstrip, List.dropWhile_cons, h]

/-- The first character surviving `dropWhile` fails the predicate. -/
theorem dropWhile_head_not {p : Char → Bool} {l t : List Char} {a : Char}
    (h : l.dropWhile p = a :: t) : p a = false := by
  induction l with
  | nil => cases h
  | cons c cs ih =>
    rw [List.dropWhile_cons] at h
    split at h
    · exact ih h
    · cases h
      simp_all

/-- Decomposition of a one-sided left strip. -/
theorem lstrip_decomp (p : Char → Bool) (l : List Char) :
    ∃ u, l = u ++ lstrip p l ∧ ∀ c ∈ u, p c = true := by
  refine ⟨l.takeWhile p, ?_, ?_⟩
  · exact (List.takeWhile_append_dropWhile p l).symm
  · exact fun c hc => List.mem_takeWhile_imp hc

theorem rstrip_decomp (p : Char → Bool) (l : List Char) :
    ∃ v, l = rstrip p l ++ v ∧ ∀ c ∈ v, p c = true := by
  refine ⟨(l.reverse.takeWhile p).reverse, ?_, ?_⟩
  · unfold rstrip
    conv_lhs => rw [← l.reverse_reverse,
      ← List.takeWhile_append_dropWhile p l.reverse]
    rw [List.reverse_append]
  · intro c hc
    rw [List.mem_reverse] at hc
    exact List.mem_takeWhile_imp hc

/-- Two-sided strip decomposition: the stripped string is an infix and the
removed characters all satisfy the predicate. -/
theorem strip_decomp (p : Char → Bool) (l : List Char) :
    ∃ u v, l = u ++ strip p l ++ v ∧ (∀ c ∈ u, p c = true) ∧
      ∀ c ∈ v, p c = true := by
  obtain ⟨u, hu, hup⟩ := lstrip_decomp p l
  obtain ⟨v, hv, hvp⟩ := rstrip_decomp p (lstrip p l)
  refine ⟨u, v, ?_, hup, hvp⟩
  conv_lhs => rw [hu, hv]
  rw [strip, List.append_assoc]

theorem strip_head? {p : Char → Bool} {l : List Char} {c : Char}
    (h : (strip p l).head? = some c) : p c = false := by
  obtain ⟨v, hv, _⟩ := rstrip_decomp p (lstrip p l)
  cases hs : strip p l with
  | nil => rw [hs] at h; cases h
  | cons a t =>
    rw [hs] at h
    injection h with h
    subst h
    rw [strip] at hs
    rw [hs] at hv
    have hd : l.dropWhile p = a :: (t ++ v) := by
      simpa [lstrip] using hv
    exact dropWhile_head_not hd

theorem rstrip_getLast? {p : Char → Bool} {l : List Char} {c : Char}
    (h : (rstrip p l).getLast? = some c) : p c = false := by
  rw [rstrip, List.getLast?_reverse] at h
  cases hs : l.reverse.dropWhile p with
  | nil => rw [hs] at h; cases h
  | cons a t =>
    rw [hs] at h
    injection h with h
    subst h
    exact dropWhile_head_not hs

theorem strip_getLast? {p : Char → Bool} {l : List Char} {c : Char}
    (h : (strip p l).getLast? = some c) : p c = false :=
  rstrip_getLast? h

theorem strip_of_all {p : Char → Bool} {l : List Char}
    (h : ∀ c ∈ l, p c = true) : strip p l = [] := by
  rw [strip, lstrip_of_all h]
  rfl

/-- `dropWhile` over an all-satisfying prefix skips it. -/
theorem dropWhile_append_of_all {p : Char → Bool} {u x : List Char}
    (h : ∀ c ∈ u, p c = true) : (u ++ x).dropWhile p = x.dropWhile p := by
  induction u with
  | nil => rfl
  | cons c t ih =>
    have hc := h c (by simp)
    simp only [List.cons_append, List.dropWhile_cons, hc, if_true]
    exact ih (fun d hd => h d (by simp [hd]))

theorem rstrip_append_of_all {p : Char → Bool} {v x : List Char}
    (h : ∀ c ∈ v, p c = true) : rstrip p (x ++ v) = rstrip p x := by
  unfold rstrip
  rw [List.reverse_append,
    dropWhile_append_of_all (fun c hc => h c (by simpa using hc))]

theorem rstrip_eq_self {p : Char → Bool} {x : List Char} {b : Char}
    (h : x.getLast? = some b) (hpb : p b = false) : rstrip p x = x := by
  cases hr : x.reverse with
  | nil =>
    have : x = [] := by simpa using congrArg List.reverse hr
    rw [this] at h
    cases h
  | cons c y =>
    have hc : x.getLast? = some c := by
      rw [← List.head?_reverse, hr]
      rfl
    rw [h] at hc
    injection hc with hc
    subst hc
    unfold rstrip
    rw [hr, List.dropWhile_cons, hpb]
    simp only [Bool.false_eq_true, if_false]
    rw [← hr, List.reverse_reverse]

/-- A decomposition `l = u ++ s ++ v` with all removed characters satisfying
`p` and the kept part starting and ending with non-`p` characters is exactly
the two-sided strip. -/
theorem strip_unique {p : Char → Bool} {l u s v : List Char}
    (hl : l = u ++ s ++ v) (hu : ∀ c ∈ u, p c = true) (hv : ∀ c ∈ v, p c = true)
    (hh : ∀ c, s.head? = some c → p c = false)
    (hlast : ∀ c, s.getLast? = some c → p c = false) :
    strip p l = s := by
  cases s with
  | nil =>
    apply strip_of_all
    intro c hc
    rw [hl] at hc
    simp only [List.nil_append, List.append_nil, List.mem_append,
      List.not_mem_nil, or_false, false_or] at hc
    rcases hc with hc | hc
    · exact hu c hc
    · exact hv c hc
  | cons a s' =>
    have hha : p a = false := hh a rfl
    have hlstrip : lstrip p l = (a :: s') ++ v := by
      rw [hl]
      rw [show (u ++ (a :: s') ++ v : List Char) = u ++ ((a :: s') ++ v) from
        List.append_assoc u _ v]
      rw [lstrip_append_of_all hu, List.cons_append, lstrip_cons_of_not hha]
    rw [strip, hlstrip]
    rw [rstrip_append_of_all hv]
    obtain ⟨b, hb⟩ : ∃ b, (a :: s').getLast? = some b :=
      ⟨(a :: s').getLast (by simp), List.getLast?_eq_getLast _ (by simp)⟩
    exact rstrip_eq_self hb (hlast b hb)

/-- Composing strips with a weaker predicate first collapses. -/
theorem strip_strip {p q : Char → Bool} (hpq : ∀ c, p c = true → q c = true)
    (l : List Char) : strip q (strip p l) = strip q l := by
  obtain ⟨u1, v1, h1, hu1, hv1⟩ := strip_decomp p l
  obtain ⟨u2, v2, h2, hu2, hv2⟩ := strip_decomp q (strip p l)
  have hdecomp : l = (u1 ++ u2) ++ strip q (strip p l) ++ (v2 ++ v1) := by
    conv_lhs => rw [h1, h2]
    simp [List.append_assoc]
  refine (strip_unique hdecomp ?_ ?_
    (fun c hc => strip_head? hc) (fun c hc => strip_getLast? hc)).symm
  · intro c hc
    rcases List.mem_append.mp hc with hc | hc
    · exact hpq c (hu1 c hc)
    · exact hu2 c hc
  · intro c hc
    rcases List.mem_append.mp hc with hc | hc
    · exact hv2 c hc
    · exact hpq c (hv1 c hc)

theorem stripWs_nil : stripWs [] = [] := rfl

theorem dropWhile_length_le (p : Char → Bool) (l : List Char) :
    (l.dropWhile p).length ≤ l.length := by
  induction l with
  | nil => simp
  | cons c t ih =>
    rw [List.dropWhile_cons]
    split
    · simp only [List.length_cons]
      omega
    · simp

theorem stripWs_stripNl (l : List Char) : stripWs (stripNl l) = stripWs l :=
  strip_strip (by intro c hc; simp only [isSpace]; simp_all) l

theorem stripWs_stripWs (l : List Char) : stripWs (stripWs l) = stripWs l :=
  strip_strip (fun _ h => h) l

/-- `findFrom` on a string of the shape `u ++ t ++ w` where every character
of `u` satisfies a class that `t`'s first character avoids finds `t` exactly
at `u.length`. -/
theorem findFrom_exact {p : Char → Bool} {t w : List Char}
    (hne : t ≠ []) (hh : ∀ c, t.head? = some c → p c = false) :
    ∀ (u : List Char) (i : Nat), (∀ c ∈ u, p c = true) →
      findFrom t (u ++ t ++ w) i = some (i + u.length) := by
  intro u
  induction u with
  | nil =>
    intro i _
    have hpre : t.isPrefixOf (t ++ w) = true := by
      rw [List.isPrefixOf_iff_prefix]
      exact ⟨w, rfl⟩
    cases t with
    | nil => exact absurd rfl hne
    | cons a t' =>
      rw [List.nil_append, List.cons_append, findFrom]
      rw [List.cons_append] at hpre
      simp [hpre]
  | cons c u' ih =>
    intro i hu
    have hnp : t.isPrefixOf (c :: (u' ++ t ++ w)) = false := by
      cases t with
      | nil => exact absurd rfl hne
      | cons a t' =>
        have hpa : p a = false := hh a rfl
        have hpc : p c = true := hu c (by simp)
        by_contra hcon
        rw [Bool.not_eq_false, List.isPrefixOf_iff_prefix] at hcon
        obtain ⟨r, hr⟩ := hcon
        have hac : a = c := by
          have := congrArg List.head? hr
          simpa using this
        rw [hac, hpc] at hpa
        cases hpa
    rw [List.cons_append, List.cons_append, findFrom]
    simp only [List.cons_append] at hnp
    simp only [hnp, Bool.false_eq_true, if_false]
    have h2 := ih (i + 1) (fun d hd => hu d (by simp [hd]))
    rw [h2, List.length_cons]
    congr 1
    omega

end Py

namespace Chunking

open Py

theorem stripWs_eq_nil_all {l : List Char} (h : stripWs l = []) :
    ∀ c ∈ l, isSpace c = true := by
  obtain ⟨u, v, hl, hu, hv⟩ := strip_decomp isSpace l
  rw [stripWs] at h
  rw [h] at hl
  intro c hc
  rw [hl] at hc
  simp only [List.append_nil, List.nil_append, List.mem_append] at hc
  rcases hc with hc | hc
  · exact hu c hc
  · exact hv c hc

theorem preStrip_strip (raw : List Char) (start se : Nat) :
    stripWs (preStrip raw start se).2.2 = stripWs raw := by
  unfold preStrip
  dsimp only
  split
  · exact stripWs_stripWs raw
  · exact stripWs_stripNl raw

theorem emitData_eq_none_iff (raw : List Char) (start se : Nat) :
    emitData raw start se = none ↔ stripWs raw = [] := by
  unfold emitData
  simp only [preStrip_strip]
  by_cases h : (stripWs raw).isEmpty
  · simp [h, List.isEmpty_iff.mp h]
  · simp only [h, Bool.false_eq_true, if_false]
    constructor
    · intro hc
      split at hc <;> cases hc
    · intro hc
      rw [List.isEmpty_iff] at h
      exact absurd hc h

/-- The emitted chunk of one window: the whitespace strip of the raw slice,
located at the offset of the raw slice's leading whitespace. -/
theorem emitData_eq_some (raw : List Char) (start se : Nat)
    (h : stripWs raw ≠ []) :
    ∃ u v, raw = u ++ stripWs raw ++ v ∧ (∀ c ∈ u, isSpace c = true) ∧
      (∀ c ∈ v, isSpace c = true) ∧
      emitData raw start se = some (stripWs raw, start + u.length,
        start + u.length + (stripWs raw).length) := by
  obtain ⟨u, v, hl, hu, hv⟩ := strip_decomp isSpace raw
  refine ⟨u, v, hl, hu, hv, ?_⟩
  have hfind : findSub raw (stripWs raw) = some u.length := by
    rw [findSub]
    nth_rewrite 2 [hl]
    simpa [stripWs] using findFrom_exact (p := isSpace) h
      (fun c hc => strip_head? hc) u 0 hu
  unfold emitData
  simp only [preStrip_strip]
  rw [if_neg (by simpa [List.isEmpty_iff] using h)]
  rw [hfind]

theorem emitData_some_inv {raw t : List Char} {start se a b : Nat}
    (h : emitData raw start se = some (t, a, b)) :
    t = stripWs raw ∧ ∃ u v, raw = u ++ t ++ v ∧ (∀ c ∈ u, isSpace c = true) ∧
      (∀ c ∈ v, isSpace c = true) ∧ a = start + u.length ∧
      b = a + t.length := by
  have hne : stripWs raw ≠ [] := by
    intro he
    rw [(emitData_eq_none_iff raw start se).mpr he] at h
    cases h
  obtain ⟨u, v, hl, hu, hv, heq⟩ := emitData_eq_some raw start se hne
  rw [heq] at h
  injection h with h
  simp only [Prod.mk.injEq] at h
  obtain ⟨h1, h2, h3⟩ := h
  subst h1
  subst h2
  subst h3
  exact ⟨rfl, u, v, hl, hu, hv, rfl, rfl⟩

theorem preStrip_le {raw : List Char} {start se : Nat} :
    (preStrip raw start se).2.1 ≤ se := by
  unfold preStrip
  dsimp only
  split <;> dsimp only <;> omega

theorem slice_length {l : List Char} {a b : Nat} (hb : b ≤ l.length) :
    (Py.slice l a b).length = b - a := by
  simp only [Py.slice, List.length_take, List.length_drop]
  omega

theorem slice_get? {l : List Char} {a b k : Nat} (hk : k < b - a) :
    (Py.slice l a b).get? k = l.get? (a + k) := by
  rw [Py.slice, List.get?_take hk, List.get?_drop]

theorem slice_full (l : List Char) : Py.slice l 0 l.length = l := by
  simp [Py.slice]

theorem chunkEndAfter_le {chunkSize minChunk : Nat} {text : List Char}
    {start : Nat} :
    chunkEndAfter (rawChunk chunkSize minChunk text start) start
      (splitEnd chunkSize minChunk text start) ≤
      splitEnd chunkSize minChunk text start := by
  set se := splitEnd chunkSize minChunk text start with hse
  set raw := rawChunk chunkSize minChunk text start with hraw
  have hrawlen : raw.length = se - start := by
    rw [hraw, rawChunk, ← hse]
    exact slice_length splitEnd_le_length
  unfold chunkEndAfter
  cases hem : emitData raw start se with
  | none =>
    dsimp only
    exact preStrip_le
  | some x =>
    obtain ⟨t, a, b⟩ := x
    dsimp only
    obtain ⟨ht, u, v, hl, hu, hv, ha, hb⟩ := emitData_some_inv hem
    have hlen : u.length + t.length ≤ raw.length := by
      rw [hl]
      simp only [List.length_append]
      omega
    have hne : t ≠ [] := by
      rw [ht]
      intro he
      rw [(emitData_eq_none_iff raw start se).mpr he] at hem
      cases hem
    have ht0 : 0 < t.length := List.length_pos.mpr hne
    omega

theorem nextStart_le {overlap start se ce : Nat} (h : ce ≤ se) :
    nextStart overlap start se ce ≤ se := by
  simp only [nextStart]
  split <;> omega

theorem nextStart_ge {overlap start se ce : Nat} (h : ce ≤ se) :
    ce - overlap ≤ nextStart overlap start se ce := by
  simp only [nextStart]
  split <;> omega

theorem nextWindowStart_le {chunkSize overlap minChunk : Nat}
    {text : List Char} {start : Nat} :
    nextWindowStart chunkSize overlap minChunk text start ≤
      splitEnd chunkSize minChunk text start :=
  nextStart_le chunkEndAfter_le

theorem nextWindowStart_gt (chunkSize overlap minChunk : Nat)
    (text : List Char) (start : Nat) (hcs : 0 < chunkSize)
    (h : start < text.length) :
    start < nextWindowStart chunkSize overlap minChunk text start :=
  nextStart_gt (splitEnd_gt hcs h)

theorem rawChunk_length {chunkSize minChunk : Nat} {text : List Char}
    {start : Nat} :
    (rawChunk chunkSize minChunk text start).length =
      splitEnd chunkSize minChunk text start - start := by
  rw [rawChunk]
  exact slice_length splitEnd_le_length

theorem rawChunk_get? {chunkSize minChunk : Nat} {text : List Char}
    {start k : Nat} (hk : k < splitEnd chunkSize minChunk text start - start) :
    (rawChunk chunkSize minChunk text start).get? k = text.get? (start + k) := by
  rw [rawChunk]
  exact slice_get? hk

theorem slice_compose {l : List Char} {a b k n : Nat} (hkn : k + n ≤ b - a) :
    Py.slice (Py.slice l a b) k (k + n) = Py.slice l (a + k) (a + k + n) := by
  simp only [Py.slice, List.drop_take, List.take_take, List.drop_drop]
  have h1 : k + n - k = n := by omega
  have h2 : a + k + n - (a + k) = n := by omega
  have h3 : min (n : Nat) (b - a - k) = n := by omega
  rw [h1, h2, h3]

/-- Membership in the loop output bounds chunk starts from below. -/
theorem chunkLoop_start_le {cs ov mc : Nat} {text : List Char}
    (hcs : 0 < cs) :
    ∀ (fuel start idx : Nat) (c : Chunk),
      c ∈ chunkLoop cs ov mc text fuel start idx → start ≤ c.start := by
  intro fuel
  induction fuel with
  | zero =>
    intro start idx c hc
    simp [chunkLoop] at hc
  | succ fuel ih =>
    intro start idx c hc
    rw [chunkLoop] at hc
    by_cases h : start < text.length
    · rw [if_pos h] at hc
      dsimp only at hc
      split at hc
      · rename_i t a b heq
        rcases List.mem_cons.mp hc with hc | hc
        · obtain ⟨_, u, v, _, _, _, ha, _⟩ := emitData_some_inv heq
          rw [hc]
          dsimp only
          omega
        · split at hc
          · have := ih _ _ c hc
            have hns := nextWindowStart_gt cs ov mc text start hcs h
            omega
          · cases hc
      · split at hc
        · have := ih _ _ c hc
          have hns := nextWindowStart_gt cs ov mc text start hcs h
          omega
        · cases hc
    · rw [if_neg h] at hc
      cases hc

/-- The first chunk the loop produces from a given window start: it lies at
or beyond the start, every text position between the start and the chunk is
whitespace, and the chunk begins with a non-whitespace character. -/
theorem chunkLoop_head_facts {cs ov mc : Nat} {text : List Char}
    (hcs : 0 < cs) :
    ∀ (fuel start idx : Nat) (c : Chunk),
      (chunkLoop cs ov mc text fuel start idx).head? = some c →
      start ≤ c.start ∧
      (∀ j ch, start ≤ j → j < c.start → text.get? j = some ch →
        isSpace ch = true) ∧
      ∃ ch, text.get? c.start = some ch ∧ isSpace ch = false := by
  intro fuel
  induction fuel with
  | zero =>
    intro start idx c hc
    simp [chunkLoop] at hc
  | succ fuel ih =>
    intro start idx c hc
    rw [chunkLoop] at hc
    by_cases h : start < text.length
    · rw [if_pos h] at hc
      dsimp only at hc
      split at hc
      · rename_i t a b heq
        rw [List.head?_cons] at hc
        injection hc with hc
        subst hc
        obtain ⟨ht, u, v, hl, hu, hv, ha, hb⟩ := emitData_some_inv heq
        have hne : t ≠ [] := by
          rw [ht]
          intro he
          rw [(emitData_eq_none_iff _ _ _).mpr he] at heq
          cases heq
        have ht0 : 0 < t.length := List.length_pos.mpr hne
        have hrawlen : (rawChunk cs mc text start).length =
            splitEnd cs mc text start - start := rawChunk_length
        have hutv : u.length + t.length ≤ (rawChunk cs mc text start).length := by
          rw [hl]
          simp only [List.length_append]
          omega
        dsimp only
        refine ⟨by omega, ?_, ?_⟩
        · intro j ch hj1 hj2 hch
          have hk : j - start < u.length := by omega
          have hget : (rawChunk cs mc text start).get? (j - start)
              = text.get? j := by
            rw [rawChunk_get? (by omega)]
            congr 1
            omega
          have : (rawChunk cs mc text start).get? (j - start) = u.get? (j - start) := by
            rw [hl, List.append_assoc, List.get?_append hk]
          rw [hget] at this
          rw [hch] at this
          have hmem := List.get?_mem this.symm
          exact hu ch hmem
        · have hgeta : text.get? a = t.get? 0 := by
            have h1 : (rawChunk cs mc text start).get? u.length = text.get? a := by
              rw [rawChunk_get? (by omega)]
              congr 1
              omega
            have h2 : (rawChunk cs mc text start).get? u.length
                = (t ++ v).get? 0 := by
              rw [hl, List.append_assoc, List.get?_append_right (le_refl _)]
              congr 1
              omega
            rw [← h1, h2, List.get?_append ht0]
          cases t with
          | nil => exact absurd rfl hne
          | cons ch0 t' =>
            refine ⟨ch0, by rw [hgeta]; rfl, ?_⟩
            have hh : (stripWs (rawChunk cs mc text start)).head? = some ch0 := by
              rw [← ht]
              rfl
            exact strip_head? hh
      · rename_i heq
        split at hc
        · rename_i hse
          obtain ⟨h1, h2, h3⟩ := ih _ _ c hc
          have hns := nextWindowStart_gt cs ov mc text start hcs h
          have hnsle : nextWindowStart cs ov mc text start ≤
              splitEnd cs mc text start := nextWindowStart_le
          have hraww : ∀ c ∈ rawChunk cs mc text start, isSpace c = true :=
            stripWs_eq_nil_all ((emitData_eq_none_iff _ _ _).mp heq)
          refine ⟨by omega, ?_, h3⟩
          intro j ch hj1 hj2 hch
          by_cases hjns : j < nextWindowStart cs ov mc text start
          · have hk : j - start < splitEnd cs mc text start - start := by omega
            have hget : (rawChunk cs mc text start).get? (j - start)
                = text.get? j := by
              rw [rawChunk_get? hk]
              congr 1
              omega
            rw [hch] at hget
            exact hraww ch (List.get?_mem hget)
          · exact h2 j ch (by omega) hj2 hch
        · cases hc
    · rw [if_neg h] at hc
      cases hc

/-- Adjacent chunks: starts never decrease, and any overlap is bounded by
the effective overlap. -/
theorem chunkLoop_chain {cs ov mc : Nat} {text : List Char} (hcs : 0 < cs) :
    ∀ (fuel start idx : Nat),
      List.Chain' (fun c d => c.start ≤ d.start ∧ c.end_ - ov ≤ d.start)
        (chunkLoop cs ov mc text fuel start idx) := by
  intro fuel
  induction fuel with
  | zero =>
    intro start idx
    simp [chunkLoop]
  | succ fuel ih =>
    intro start idx
    rw [chunkLoop]
    by_cases h : start < text.length
    · rw [if_pos h]
      dsimp only
      split
      · rename_i t a b heq
        rw [List.chain'_cons']
        constructor
        · intro d hd
          split at hd
          · rename_i hse
            obtain ⟨hd1, hd2, hd3⟩ := chunkLoop_head_facts hcs _ _ _ d hd
            obtain ⟨ht, u, v, hl, hu, hv, ha, hb⟩ := emitData_some_inv heq
            have hne : t ≠ [] := by
              rw [ht]
              intro he
              rw [(emitData_eq_none_iff _ _ _).mpr he] at heq
              cases heq
            have ht0 : 0 < t.length := List.length_pos.mpr hne
            have hrawlen : (rawChunk cs mc text start).length =
                splitEnd cs mc text start - start := rawChunk_length
            have hutv : u.length + t.length ≤
                (rawChunk cs mc text start).length := by
              rw [hl]
              simp only [List.length_append]
              omega
            have hce : chunkEndAfter (rawChunk cs mc text start) start
                (splitEnd cs mc text start) = b := by
              unfold chunkEndAfter
              rw [heq]
            have hns_ge : b - ov ≤ nextWindowStart cs ov mc text start := by
              rw [nextWindowStart, hce]
              exact nextStart_ge (hce ▸ chunkEndAfter_le)
            have hns := nextWindowStart_gt cs ov mc text start hcs h
            dsimp only
            constructor
            · -- a ≤ d.start
              by_contra hlt
              push_neg at hlt
              have hk : d.start - start < u.length := by omega
              have hget : (rawChunk cs mc text start).get? (d.start - start)
                  = text.get? d.start := by
                rw [rawChunk_get? (by omega)]
                congr 1
                omega
              have hgu : (rawChunk cs mc text start).get? (d.start - start)
                  = u.get? (d.start - start) := by
                rw [hl, List.append_assoc, List.get?_append hk]
              obtain ⟨ch, hch, hchws⟩ := hd3
              rw [hget, hch] at hgu
              have := hu ch (List.get?_mem hgu.symm)
              rw [this] at hchws
              cases hchws
            · omega
          · cases hd
        · split
          · exact ih _ _
          · exact List.chain'_nil
      · split
        · exact ih _ _
        · exact List.chain'_nil
    · rw [if_neg h]
      exact List.chain'_nil

/-- Shape of every produced chunk: non-empty text, `end = start + len(text)`,
and the text is exactly the corresponding slice of the input. -/
theorem chunkLoop_shape {cs ov mc : Nat} {text : List Char} :
    ∀ (fuel start idx : Nat) (c : Chunk),
      c ∈ chunkLoop cs ov mc text fuel start idx →
      c.text ≠ [] ∧ c.end_ = c.start + c.text.length ∧
        Py.slice text c.start c.end_ = c.text := by
  intro fuel
  induction fuel with
  | zero =>
    intro start idx c hc
    simp [chunkLoop] at hc
  | succ fuel ih =>
    intro start idx c hc
    rw [chunkLoop] at hc
    by_cases h : start < text.length
    · rw [if_pos h] at hc
      dsimp only at hc
      split at hc
      · rename_i t a b heq
        rcases List.mem_cons.mp hc with hc | hc
        · subst hc
          obtain ⟨ht, u, v, hl, hu, hv, ha, hb⟩ := emitData_some_inv heq
          have hne : t ≠ [] := by
            rw [ht]
            intro he
            rw [(emitData_eq_none_iff _ _ _).mpr he] at heq
            cases heq
          have hrawlen : (rawChunk cs mc text start).length =
              splitEnd cs mc text start - start := rawChunk_length
          have hutv : u.length + t.length ≤
              (rawChunk cs mc text start).length := by
            rw [hl]
            simp only [List.length_append]
            omega
          have hsl : Py.slice (u ++ (t ++ v)) u.length
              (u.length + t.length) = t := by
            simp only [Py.slice, List.drop_left]
            have h5 : u.length + t.length - u.length = t.length := by omega
            rw [h5, List.take_left]
          have hcomp := slice_compose (l := text) (a := start)
            (b := splitEnd cs mc text start) (k := u.length) (n := t.length)
            (by omega)
          have hraweq : Py.slice text start (splitEnd cs mc text start)
              = rawChunk cs mc text start := rfl
          refine ⟨hne, by dsimp only; omega, ?_⟩
          dsimp only
          rw [hb, ha]
          rw [← hcomp, hraweq, hl, List.append_assoc]
          exact hsl
        · split at hc
          · exact ih _ _ c hc
          · cases hc
      · split at hc
        · exact ih _ _ c hc
        · cases hc
    · rw [if_neg h] at hc
      cases hc


/-- Chunk indices are assigned contiguously in visitation order. -/
theorem chunkLoop_indices {cs ov mc : Nat} {text : List Char} :
    ∀ (fuel start idx : Nat),
      (chunkLoop cs ov mc text fuel start idx).map (fun c => c.index) =
        List.range' idx (chunkLoop cs ov mc text fuel start idx).length := by
  intro fuel
  induction fuel with
  | zero =>
    intro start idx
    simp [chunkLoop]
  | succ fuel ih =>
    intro start idx
    rw [chunkLoop]
    by_cases h : start < text.length
    · rw [if_pos h]
      dsimp only
      split
    
      · split
        · rw [List.map_cons, ih]
          rfl
        · rfl
      · split
        · exact ih _ _
        · rfl
    · rw [if_neg h]
      rfl

/-- The loop result does not depend on the fuel, as long as the fuel covers
the remaining distance to the end of the text: the loop terminates within
`len(text) - start` iterations because the window start strictly advances. -/
theorem chunkLoop_fuel_irrel {cs ov mc : Nat} {text : List Char}
    (hcs : 0 < cs) :
    ∀ (f1 f2 start idx : Nat), text.length - start ≤ f1 →
      text.length - start ≤ f2 →
      chunkLoop cs ov mc text f1 start idx =
        chunkLoop cs ov mc text f2 start idx := by
  intro f1
  induction f1 with
  | zero =>
    intro f2 start idx h1 h2
    have hge : ¬ start < text.length := by omega
    cases f2 with
    | zero => rfl
    | succ f2 =>
      rw [chunkLoop, chunkLoop, if_neg hge]
  | succ f1 ih =>
    intro f2 start idx h1 h2
    cases f2 with
    | zero =>
      have hge : ¬ start < text.length := by omega
      rw [chunkLoop, chunkLoop, if_neg hge]
    | succ f2 =>
      rw [chunkLoop, chunkLoop]
      by_cases h : start < text.length
      · rw [if_pos h, if_pos h]
        dsimp only
        have hns := nextWindowStart_gt cs ov mc text start hcs h
        have hrec : text.length - nextWindowStart cs ov mc text start ≤ f1 ∧
            text.length - nextWindowStart cs ov mc text start ≤ f2 := by omega
        split
        · split
          · rw [ih _ _ _ hrec.1 hrec.2]
          · rfl
        · split
          · exact ih _ _ _ hrec.1 hrec.2
          · rfl
      · rw [if_neg h, if_neg h]

theorem determineChunkSize_ge_base (cfg : Chunker) (n : Nat)
    (hv : cfg.Valid) :
    cfg.base_chunk_size ≤ determineChunkSize cfg n := by
  obtain ⟨h1, h2⟩ := hv
  unfold determineChunkSize
  split
  · exact le_refl _
  · dsimp only
    omega

/-- When the whole window is closer than `min_chunk_size`, every split
token is rejected and the split point is the window end. -/
theorem findSplitAux_small {minChunk : Nat} {text : List Char}
    {start window_end : Nat} (hsm : window_end ≤ start + minChunk) :
    ∀ toks : List (List Char), (∀ t ∈ toks, t ≠ []) →
      findSplitAux minChunk text start window_end toks = window_end := by
  intro toks htoks
  induction toks with
  | nil => rfl
  | cons tok toks ih =>
    have htok : tok ≠ [] := htoks tok (by simp)
    have hrest := ih (fun t ht => htoks t (by simp [ht]))
    rw [findSplitAux]
    cases hfind : rfindIn text tok start window_end with
    | none => exact hrest
    | some pos =>
      dsimp only
      obtain ⟨hp1, hp2, _⟩ := rfindIn_some hfind
      have htl : 0 < tok.length := List.length_pos.mpr htok
      rw [if_neg (by omega)]
      exact hrest

theorem splitTokens_ne : ∀ t ∈ splitTokens, t ≠ [] := by
  intro t ht
  simp only [splitTokens, List.mem_cons] at ht
  rcases ht with h | h | h | h | h | h <;> simp_all

theorem determineChunkSize_pos (cfg : Chunker) (n : Nat) (hv : cfg.Valid) :
    0 < determineChunkSize cfg n :=
  lt_of_lt_of_le hv.1 (determineChunkSize_ge_base cfg n hv)

/-- One full window covering the whole text produces a single chunk. -/
theorem chunkLoop_single {cs ov mc : Nat} {text t : List Char}
    {fuel a b : Nat} (hfuel : 0 < fuel) (h0 : 0 < text.length)
    (hse : splitEnd cs mc text 0 = text.length)
    (hem : emitData (rawChunk cs mc text 0) 0 (splitEnd cs mc text 0) =
      some (t, a, b)) :
    chunkLoop cs ov mc text fuel 0 0 =
      [{ text := t, index := 0, start := a, end_ := b }] := by
  cases fuel with
  | zero => omega
  | succ fuel =>
    rw [chunkLoop, if_pos h0]
    dsimp only
    rw [hem]
    dsimp only
    rw [if_neg (by omega)]

/-- Default construction values of `AdaptiveTextChunker.__init__`. -/
def defaultChunkerCfg : Chunker :=
  { base_chunk_size := 1200, chunk_overlap := 200, max_chunk_size := 2400,
    large_document_threshold := 60000, target_chunk_count := 256,
    min_chunk_size := 400 }

/-- A valid configuration with a deliberately generous overlap. -/
def overlapDemoCfg : Chunker :=
  { base_chunk_size := 30, chunk_overlap := 10, max_chunk_size := 30,
    large_document_threshold := 60000, target_chunk_count := 256,
    min_chunk_size := 1 }

/-- 23 newlines, a short word followed by a paragraph break, then filler. -/
def overlapDemoText : List Char :=
  List.replicate 23 '\n' ++ "abc\n\n".toList ++ List.replicate 20 'q'

/-- A configuration whose `min_chunk_size` exceeds `base_chunk_size`. -/
def minGtBaseCfg : Chunker :=
  { base_chunk_size := 10, chunk_overlap := 0, max_chunk_size := 10,
    large_document_threshold := 60000, target_chunk_count := 256,
    min_chunk_size := 400 }

/-- C3 (amended): for every configuration accepted by the constructor, the
window start strictly advances on every loop iteration of
`AdaptiveTextChunker.chunk` (so the loop terminates; `chunkLoop_fuel_irrel`
shows the fuel bound `len(text)` never cuts the loop short), and for all
adjacent produced chunks `(c, d)` the starts are non-decreasing
(`c.start ≤ d.start`; equality can occur, see the counterexample) and any
overlap is bounded by the effective overlap:
`d.start ≥ c.end - min(chunk_overlap, effectiveSize / 3)`. -/
theorem chunk_window_advance_and_adjacent_monotone (cfg : Chunker)
    (hv : cfg.Valid) (text : List Char) :
    (∀ start, start < (replaceCRLF text).length →
      start < nextWindowStart
        (determineChunkSize cfg (replaceCRLF text).length)
        (min cfg.chunk_overlap
          (max 0 (determineChunkSize cfg (replaceCRLF text).length / 3)))
        cfg.min_chunk_size (replaceCRLF text) start) ∧
    List.Chain'
      (fun c d => c.start ≤ d.start ∧
        c.end_ - min cfg.chunk_overlap
          (max 0 (determineChunkSize cfg (replaceCRLF text).length / 3)) ≤
          d.start)
      (chunk cfg text) := by
  have hcs := determineChunkSize_pos cfg (replaceCRLF text).length hv
  constructor
  · intro start h
    exact nextWindowStart_gt _ _ _ _ start hcs h
  · unfold chunk
    dsimp only
    split
    · exact List.chain'_nil
    · exact chunkLoop_chain hcs _ _ _

/-- Witness for `chunk_window_advance_and_adjacent_monotone` at the default
configuration and a concrete text. -/
theorem chunk_window_advance_witness :
    defaultChunkerCfg.Valid ∧
    List.Chain'
      (fun c d => c.start ≤ d.start ∧
        c.end_ - min defaultChunkerCfg.chunk_overlap
          (max 0 (determineChunkSize defaultChunkerCfg
            (replaceCRLF "Hello world".toList).length / 3)) ≤ d.start)
      (chunk defaultChunkerCfg "Hello world".toList) := by
  have hv : defaultChunkerCfg.Valid := ⟨by decide, by decide⟩
  exact ⟨hv, (chunk_window_advance_and_adjacent_monotone defaultChunkerCfg hv
    "Hello world".toList).2⟩

/-- C3 counterexample: with the valid configuration `overlapDemoCfg`
(`overlap = 10 ≤ effectiveSize - 1 = 29`) and `overlapDemoText`, two
adjacent produced chunks have *equal* starts (both 23), so
`C_{i+1}.start > C_i.start` fails as stated. -/
theorem chunk_strict_start_counterexample :
    mkChunker 30 10 30 60000 256 1 = some overlapDemoCfg ∧
    overlapDemoCfg.chunk_overlap + 1 ≤
      determineChunkSize overlapDemoCfg overlapDemoText.length ∧
    ¬ List.Chain' (fun c d => c.start < d.start)
      (chunk overlapDemoCfg overlapDemoText) := by
  refine ⟨by decide, by decide, ?_⟩
  have h : chunk overlapDemoCfg overlapDemoText =
      [{ text := "abc".toList, index := 0, start := 23, end_ := 26 },
       { text := "abc".toList, index := 1, start := 23, end_ := 26 },
       { text := List.replicate 20 'q', index := 2, start := 28, end_ := 48 }] := by
    decide
  rw [h]
  simp [List.chain'_cons]

/-- C8: every chunk produced by `AdaptiveTextChunker.chunk` satisfies
`end - start = len(text)` and its text is exactly the corresponding slice of
the line-ending-normalized input; indices are 0-based and contiguous in
visitation order; and an all-whitespace window emits no chunk (hence
consumes no index). -/
theorem chunk_shape_slice_and_contiguous_indices (cfg : Chunker)
    (text : List Char) :
    (∀ c ∈ chunk cfg text,
      c.end_ - c.start = c.text.length ∧
      Py.slice (replaceCRLF text) c.start c.end_ = c.text) ∧
    (chunk cfg text).map (fun c => c.index) =
      List.range (chunk cfg text).length ∧
    (∀ raw start se, stripWs raw = [] → emitData raw start se = none) := by
  refine ⟨?_, ?_, ?_⟩
  · intro c hc
    unfold chunk at hc
    dsimp only at hc
    split at hc
    · cases hc
    · obtain ⟨h1, h2, h3⟩ := chunkLoop_shape _ _ _ c hc
      exact ⟨by omega, h3⟩
  · unfold chunk
    dsimp only
    split
    · rfl
    · rw [chunkLoop_indices, List.range_eq_range']
  · intro raw start se h
    exact (emitData_eq_none_iff raw start se).mpr h

/-- C9 (amended): when the trimmed input is non-empty, shorter than
`min_chunk_size`, and `min_chunk_size ≤ base_chunk_size` (as with the
constructor defaults), `chunk` returns exactly one chunk whose text is the
trimmed input.  The counterexample shows both side conditions are needed. -/
theorem chunk_short_text_single_trimmed (cfg : Chunker) (hv : cfg.Valid)
    (hmb : cfg.min_chunk_size ≤ cfg.base_chunk_size) (text : List Char)
    (hne : stripWs (replaceCRLF text) ≠ [])
    (hshort : (replaceCRLF text).length < cfg.min_chunk_size) :
    (chunk cfg text).map (fun c => c.text) = [stripWs (replaceCRLF text)] := by
  have hlen0 : 0 < (replaceCRLF text).length := by
    cases hn : replaceCRLF text with
    | nil =>
      rw [hn] at hne
      exact absurd rfl hne
    | cons a t => simp [hn]
  have hcs_ge : cfg.base_chunk_size ≤
      determineChunkSize cfg (replaceCRLF text).length :=
    determineChunkSize_ge_base _ _ hv
  have hwe : windowEnd (determineChunkSize cfg (replaceCRLF text).length)
      (replaceCRLF text) 0 = (replaceCRLF text).length := by
    unfold windowEnd
    omega
  have hse : splitEnd (determineChunkSize cfg (replaceCRLF text).length)
      cfg.min_chunk_size (replaceCRLF text) 0 = (replaceCRLF text).length := by
    unfold splitEnd findSplitPoint
    rw [hwe]
    exact findSplitAux_small (by omega) splitTokens splitTokens_ne
  have hraw : rawChunk (determineChunkSize cfg (replaceCRLF text).length)
      cfg.min_chunk_size (replaceCRLF text) 0 = replaceCRLF text := by
    unfold rawChunk
    rw [hse]
    exact slice_full _
  obtain ⟨u, v, hl, hu, hvv, hemit⟩ :=
    emitData_eq_some (replaceCRLF text) 0
      (splitEnd (determineChunkSize cfg (replaceCRLF text).length)
        cfg.min_chunk_size (replaceCRLF text) 0) hne
  have hem2 : emitData
      (rawChunk (determineChunkSize cfg (replaceCRLF text).length)
        cfg.min_chunk_size (replaceCRLF text) 0) 0
      (splitEnd (determineChunkSize cfg (replaceCRLF text).length)
        cfg.min_chunk_size (replaceCRLF text) 0) =
      some (stripWs (replaceCRLF text), 0 + u.length,
        0 + u.length + (stripWs (replaceCRLF text)).length) := by
    rw [hraw]
    exact hemit
  unfold chunk
  dsimp only
  rw [if_neg (by simpa [List.isEmpty_iff] using hne)]
  rw [chunkLoop_single hlen0 hlen0 hse hem2]
  rfl

/-- Witness for `chunk_short_text_single_trimmed` at the default
configuration. -/
theorem chunk_short_text_witness :
    defaultChunkerCfg.Valid ∧
    defaultChunkerCfg.min_chunk_size ≤ defaultChunkerCfg.base_chunk_size ∧
    stripWs (replaceCRLF "Hello world".toList) ≠ [] ∧
    (replaceCRLF "Hello world".toList).length <
      defaultChunkerCfg.min_chunk_size ∧
    (chunk defaultChunkerCfg "Hello world".toList).map (fun c => c.text) =
      [stripWs (replaceCRLF "Hello world".toList)] := by
  refine ⟨⟨by decide, by decide⟩, by decide, by decide, by decide, ?_⟩
  exact chunk_short_text_single_trimmed defaultChunkerCfg
    ⟨by decide, by decide⟩ (by decide) "Hello world".toList
    (by decide) (by decide)

/-- C9 counterexample: (a) whitespace-only input shorter than
`min_chunk_size` yields zero chunks, not one; (b) with
`min_chunk_size > base_chunk_size` a 20-character text (shorter than
`min_chunk_size = 400`) yields two chunks. -/
theorem chunk_short_text_counterexample :
    (mkChunker 1200 200 2400 60000 256 400 = some defaultChunkerCfg ∧
      ("   ".toList).length < defaultChunkerCfg.min_chunk_size ∧
      chunk defaultChunkerCfg "   ".toList = []) ∧
    (mkChunker 10 0 10 60000 256 400 = some minGtBaseCfg ∧
      (List.replicate 20 'a').length < minGtBaseCfg.min_chunk_size ∧
      (chunk minGtBaseCfg (List.replicate 20 'a')).length = 2) := by
  decide

end Chunking



namespace Dispatcher

open Py

/-- `ProcessingEngine` enum of src/core/dispatcher.py. -/
inductive ProcessingEngine where
  | PYMUPDF
  | TESSERACT
  | NOUGAT
  | MATHPIX
  deriving DecidableEq, Repr

/-- `ProcessingEngine.value` (the enum's string payload). -/
def ProcessingEngine.value : ProcessingEngine → String
  | .PYMUPDF => "pymupdf"
  | .TESSERACT => "tesseract"
  | .NOUGAT => "nougat"
  | .MATHPIX => "mathpix"

/-- `DocumentRoute` dataclass.  Confidences are exact decimals, embedded in
`ℚ`. -/
structure DocumentRoute where
  engine : ProcessingEngine
  confidence : ℚ
  reason : String
  deriving DecidableEq, Repr

/-- `ProcessingResult` dataclass.  The `metadata` map and the wall-clock
`processing_time` carry no information the claims touch and are omitted. -/
structure ProcessingResult where
  success : Bool
  text : List Char
  engine_used : ProcessingEngine
  error_message : Option String
  deriving DecidableEq, Repr

/-- `ERROR_NO_ENGINE_AVAILABLE`. -/
def ERROR_NO_ENGINE_AVAILABLE : String := "No processing engine available"

/-- The `scientific_tags` set. -/
def scientificTags : List String :=
  ["#scientific", "#math_heavy", "#journal_article",
   "#formulas", "#equations", "#latex", "#research_paper"]

/-- Insertion order of the `engines_available` dict (Python dicts preserve
insertion order, so `_get_last_resort_route` iterates in this order). -/
def engineOrder : List ProcessingEngine :=
  [.PYMUPDF, .TESSERACT, .NOUGAT, .MATHPIX]

/-- Per-document inputs of `PDFDispatcher.analyze_document`: engine
availability probes, the outcome of `extract_pdf(pdf_path)` (`none` models
the failed import that leaves `extract_pdf = None`; `Except.error` an
exception raised during extraction), and the Zotero collaborator
(`zotero_tags` is the `get_item_metadata(...)['tags']` outcome). -/
structure AnalyzeEnv where
  engines_available : ProcessingEngine → Bool
  extract_pdf : Option (Except String (List Char))
  zotero_client : Bool
  zotero_item_key : Option String
  zotero_tags : Except String (List String)

/-- `PDFDispatcher._try_pymupdf_extraction`: a swallowed exception or short
text yields no route; `sample_text and len(sample_text.strip()) > 100` is
the truthiness test plus the length threshold. -/
def tryPymupdfExtraction (env : AnalyzeEnv) : Option DocumentRoute :=
  if !env.engines_available .PYMUPDF then none
  else
    match env.extract_pdf with
    | none => none
    | some (Except.error _) => none
    | some (Except.ok sample) =>
      if !sample.isEmpty && decide (100 < (stripWs sample).length) then
        some { engine := .PYMUPDF, confidence := 95 / 100,
               reason := "Text-based PDF with sufficient extractable content" }
      else none

/-- `PDFDispatcher._get_scientific_route`.  Python interpolates the matched
tag *set* into the reason; a set's repr order is unspecified, so the reason
is modelled by its fixed prefix (no claim inspects these reasons). -/
def getScientificRoute (env : AnalyzeEnv) : Option DocumentRoute :=
  if env.engines_available .NOUGAT then
    some { engine := .NOUGAT, confidence := 85 / 100,
           reason := "Scientific document with tags: " }
  else if env.engines_available .MATHPIX then
    some { engine := .MATHPIX, confidence := 80 / 100,
           reason := "Scientific document, using cloud API: " }
  else none

/-- `PDFDispatcher._analyze_zotero_tags` (an empty item key is falsy; a
metadata exception is logged and swallowed). -/
def analyzeZoteroTags (env : AnalyzeEnv) : Option DocumentRoute :=
  match env.zotero_item_key with
  | none => none
  | some key =>
    if !env.zotero_client || key = "" then none
    else
      match env.zotero_tags with
      | Except.error _ => none
      | Except.ok tags =>
        if tags.any (fun t => scientificTags.contains t) then
          getScientificRoute env
        else none

/-- `PDFDispatcher._get_fallback_route`. -/
def getFallbackRoute (env : AnalyzeEnv) : Option DocumentRoute :=
  if env.engines_available .TESSERACT then
    some { engine := .TESSERACT, confidence := 70 / 100,
           reason := "Scanned or image-based PDF, using standard OCR" }
  else none

/-- `PDFDispatcher._get_last_resort_route`: first available engine in dict
order *other than PyMuPDF*, else the degenerate confidence-0 route. -/
def getLastResortRoute (env : AnalyzeEnv) : DocumentRoute :=
  match engineOrder.find?
      (fun e => env.engines_available e && !(e == ProcessingEngine.PYMUPDF)) with
  | some e =>
    { engine := e, confidence := 50 / 100,
      reason := "Fallback to " ++ e.value ++ " (other engines unavailable)" }
  | none =>
    { engine := .PYMUPDF, confidence := 0,
      reason := ERROR_NO_ENGINE_AVAILABLE }

/-- `PDFDispatcher.analyze_document`: the four routing steps in order. -/
def analyze_document (env : AnalyzeEnv) : DocumentRoute :=
  match tryPymupdfExtraction env with
  | some r => r
  | none =>
    match analyzeZoteroTags env with
    | some r => r
    | none =>
      match getFallbackRoute env with
      | some r => r
      | none => getLastResortRoute env

/-- Outcome dictionary of `NougatProcessor.process_pdf` as consumed by
`_process_with_nougat` (`error` is read with
`result.get('error', 'Unknown Nougat error')`). -/
structure NougatDict where
  success : Bool
  markdown : List Char
  error : Option String
  deriving DecidableEq, Repr

/-- Per-document inputs of `PDFDispatcher.process_document`:
`tesseract_result` is the outcome of the whole `_process_with_tesseract`
body (OCR text, or the exception it raises — including the re-wrapped
`ImportError`); `nougat_import_ok`/`nougat_import_msg` model the
`from ..formulas.nougat_processor import ...` attempt,
`nougat_processor_available` whether `create_nougat_processor()` returned a
processor, and `nougat_process` the `processor.process_pdf(...)` outcome. -/
structure ProcessEnv where
  extract_pdf : Option (Except String (List Char))
  tesseract_result : Except String (List Char)
  nougat_import_ok : Bool
  nougat_import_msg : String
  nougat_processor_available : Bool
  nougat_process : Except String NougatDict

/-- `PDFDispatcher._process_with_pymupdf` under the outer `try` of
`process_document`: a `None` import raises
`ImportError("PyMuPDF extraction not available")`, any exception is caught
by `process_document` and wrapped. -/
def processWithPymupdf (env : ProcessEnv) : ProcessingResult :=
  match env.extract_pdf with
  | none =>
    { success := false, text := [], engine_used := .PYMUPDF,
      error_message := some "PyMuPDF extraction not available" }
  | some (Except.error e) =>
    { success := false, text := [], engine_used := .PYMUPDF,
      error_message := some e }
  | some (Except.ok text) =>
    { success := !(stripWs text).isEmpty, text := text,
      engine_used := .PYMUPDF, error_message := none }

/-- `PDFDispatcher._process_with_tesseract` under the outer `try`. -/
def processWithTesseract (env : ProcessEnv) : ProcessingResult :=
  match env.tesseract_result with
  | Except.error e =>
    { success := false, text := [], engine_used := .TESSERACT,
      error_message := some e }
  | Except.ok text =>
    { success := !(stripWs text).isEmpty, text := text,
      engine_used := .TESSERACT, error_message := none }

/-- `PDFDispatcher._process_with_nougat` under the outer `try`:
`success` is copied from the processor's own `success` flag, and on success
`text` is the raw markdown — *without* a non-empty check. -/
def processWithNougat (env : ProcessEnv) : ProcessingResult :=
  if !env.nougat_import_ok then
    { success := false, text := [], engine_used := .NOUGAT,
      error_message :=
        some ("Nougat dependencies not available: " ++ env.nougat_import_msg) }
  else if !env.nougat_processor_available then
    { success := false, text := [], engine_used := .NOUGAT,
      error_message := some "Nougat processor not available" }
  else
    match env.nougat_process with
    | Except.error e =>
      { success := false, text := [], engine_used := .NOUGAT,
        error_message := some e }
    | Except.ok d =>
      if d.success then
        { success := true, text := d.markdown, engine_used := .NOUGAT,
          error_message := none }
      else
        { success := false, text := [], engine_used := .NOUGAT,
          error_message := some (d.error.getD "Unknown Nougat error") }

/-- `PDFDispatcher._process_with_mathpix`. -/
def processWithMathpix : ProcessingResult :=
  { success := false, text := [], engine_used := .MATHPIX,
    error_message := some "Mathpix API not implemented - use Nougat instead" }

/-- `PDFDispatcher.process_document`: dispatch on the routed engine; every
engine exception becomes a `success := false` result with the exception
text, never a propagated error. -/
def process_document (env : ProcessEnv) (engine : ProcessingEngine) :
    ProcessingResult :=
  match engine with
  | .PYMUPDF => processWithPymupdf env
  | .TESSERACT => processWithTesseract env
  | .NOUGAT => processWithNougat env
  | .MATHPIX => processWithMathpix

end Dispatcher

namespace Dispatcher

theorem mem_engineOrder (e : ProcessingEngine) : e ∈ engineOrder := by
  cases e <;> simp [engineOrder]

theorem tryPymupdf_spec {env : AnalyzeEnv} {r : DocumentRoute}
    (h : tryPymupdfExtraction env = some r) :
    r.engine = .PYMUPDF ∧ r.confidence = 95 / 100 ∧
      env.engines_available .PYMUPDF = true := by
  unfold tryPymupdfExtraction at h
  by_cases ha : env.engines_available .PYMUPDF
  · rw [if_neg (by simp [ha])] at h
    cases hx : env.extract_pdf with
    | none => rw [hx] at h; cases h
    | some res =>
      rw [hx] at h
      cases res with
      | error e => cases h
      | ok sample =>
        dsimp only at h
        split at h
        · injection h with h
          subst h
          exact ⟨rfl, rfl, ha⟩
        · cases h
  · rw [if_pos (by simp [ha])] at h
    cases h

theorem getScientificRoute_spec {env : AnalyzeEnv} {r : DocumentRoute}
    (h : getScientificRoute env = some r) :
    env.engines_available r.engine = true ∧ r.engine ≠ .PYMUPDF ∧
      (r.confidence = 85 / 100 ∨ r.confidence = 80 / 100) := by
  unfold getScientificRoute at h
  split at h
  · injection h with h
    subst h
    simp_all
  · split at h
    · injection h with h
      subst h
      simp_all
    · cases h

theorem analyzeZoteroTags_spec {env : AnalyzeEnv} {r : DocumentRoute}
    (h : analyzeZoteroTags env = some r) :
    env.engines_available r.engine = true ∧ r.engine ≠ .PYMUPDF ∧
      (r.confidence = 85 / 100 ∨ r.confidence = 80 / 100) := by
  unfold analyzeZoteroTags at h
  split at h
  · cases h
  · split at h
    · cases h
    · split at h
      · cases h
      · split at h
        · exact getScientificRoute_spec h
        · cases h

theorem getFallbackRoute_spec {env : AnalyzeEnv} {r : DocumentRoute}
    (h : getFallbackRoute env = some r) :
    r.engine = .TESSERACT ∧ r.confidence = 70 / 100 ∧
      env.engines_available .TESSERACT = true := by
  unfold getFallbackRoute at h
  split at h
  · injection h with h
    subst h
    simp_all
  · cases h

theorem getLastResortRoute_spec (env : AnalyzeEnv) :
    ((getLastResortRoute env).confidence = 50 / 100 ∧
      env.engines_available (getLastResortRoute env).engine = true ∧
      (getLastResortRoute env).engine ≠ .PYMUPDF) ∨
    (getLastResortRoute env =
      { engine := .PYMUPDF, confidence := 0,
        reason := ERROR_NO_ENGINE_AVAILABLE } ∧
      ∀ e, e ≠ ProcessingEngine.PYMUPDF →
        env.engines_available e = false) := by
  unfold getLastResortRoute
  cases hf : engineOrder.find?
      (fun e => env.engines_available e && !(e == ProcessingEngine.PYMUPDF)) with
  | some e =>
    left
    have := List.find?_some hf
    simp only [Bool.and_eq_true, Bool.not_eq_true', beq_eq_false_iff_ne] at this
    exact ⟨rfl, this.1, this.2⟩
  | none =>
    right
    refine ⟨rfl, ?_⟩
    intro e he
    have := List.find?_eq_none.mp hf e (mem_engineOrder e)
    simp only [Bool.and_eq_true, Bool.not_eq_true', beq_eq_false_iff_ne,
      not_and] at this
    by_contra hav
    rw [Bool.not_eq_false] at hav
    exact he (by by_contra hne; exact absurd (this hav) (by simp_all))

/-- C1 (amended): `Dispatcher.analyze_document` is total — it always returns
a `DocumentRoute` with confidence in `[0, 1]`; when *no* engine is available
it returns the degenerate route
`{PYMUPDF, 0.0, "No processing engine available"}`; and whenever some engine
*other than PyMuPDF* is available and routing steps 1–3 yield no route, it
returns an available non-PyMuPDF engine with confidence 0.50.  (The original
claim is false when *only* PyMuPDF is available: `_get_last_resort_route`
skips PyMuPDF, see `analyze_document_only_pymupdf_counterexample`.) -/
theorem analyze_document_total_and_fallback (env : AnalyzeEnv) :
    (0 ≤ (analyze_document env).confidence ∧
      (analyze_document env).confidence ≤ 1) ∧
    ((∀ e, env.engines_available e = false) →
      analyze_document env =
        { engine := .PYMUPDF, confidence := 0,
          reason := ERROR_NO_ENGINE_AVAILABLE }) ∧
    ((∃ e, e ≠ ProcessingEngine.PYMUPDF ∧ env.engines_available e = true) →
      tryPymupdfExtraction env = none → analyzeZoteroTags env = none →
      getFallbackRoute env = none →
      (analyze_document env).confidence = 50 / 100 ∧
        env.engines_available (analyze_document env).engine = true ∧
        (analyze_document env).engine ≠ .PYMUPDF) := by
  refine ⟨?_, ?_, ?_⟩
  · unfold analyze_document
    cases h1 : tryPymupdfExtraction env with
    | some r =>
      obtain ⟨_, hc, _⟩ := tryPymupdf_spec h1
      rw [hc]
      norm_num
    | none =>
      cases h2 : analyzeZoteroTags env with
      | some r =>
        obtain ⟨_, _, hc⟩ := analyzeZoteroTags_spec h2
        rcases hc with hc | hc <;> rw [hc] <;> norm_num
      | none =>
        cases h3 : getFallbackRoute env with
        | some r =>
          obtain ⟨_, hc, _⟩ := getFallbackRoute_spec h3
          rw [hc]
          norm_num
        | none =>
          rcases getLastResortRoute_spec env with ⟨hc, _, _⟩ | ⟨hc, _⟩
          · rw [hc]
            norm_num
          · rw [hc]
            norm_num
  · intro hnone
    unfold analyze_document
    cases h1 : tryPymupdfExtraction env with
    | some r =>
      have := (tryPymupdf_spec h1).2.2
      rw [hnone _] at this
      cases this
    | none =>
      cases h2 : analyzeZoteroTags env with
      | some r =>
        have := (analyzeZoteroTags_spec h2).1
        rw [hnone _] at this
        cases this
      | none =>
        cases h3 : getFallbackRoute env with
        | some r =>
          have := (getFallbackRoute_spec h3).2.2
          rw [hnone _] at this
          cases this
        | none =>
          rcases getLastResortRoute_spec env with ⟨_, hav, _⟩ | ⟨hc, _⟩
          · rw [hnone _] at hav
            cases hav
          · exact hc
  · rintro ⟨e, hne, hav⟩ h1 h2 h3
    unfold analyze_document
    rw [h1, h2, h3]
    rcases getLastResortRoute_spec env with ⟨hc, hav2, hne2⟩ | ⟨_, hall⟩
    · exact ⟨hc, hav2, hne2⟩
    · rw [hall e hne] at hav
      cases hav

/-- Inputs of the C1 witness: only Nougat is available and steps 1–3 all
fail to route. -/
def analyzeNougatOnlyEnv : AnalyzeEnv :=
  { engines_available := fun e => e == ProcessingEngine.NOUGAT,
    extract_pdf := none, zotero_client := false, zotero_item_key := none,
    zotero_tags := Except.ok [] }

/-- Witness for `analyze_document_total_and_fallback`: with only Nougat
available and no route from steps 1–3, the fallback confidence is 0.50. -/
theorem analyze_document_fallback_witness :
    (analyze_document analyzeNougatOnlyEnv).confidence = 50 / 100 ∧
      analyzeNougatOnlyEnv.engines_available
        (analyze_document analyzeNougatOnlyEnv).engine = true ∧
      (analyze_document analyzeNougatOnlyEnv).engine ≠ .PYMUPDF :=
  (analyze_document_total_and_fallback analyzeNougatOnlyEnv).2.2
    ⟨.NOUGAT, by decide, by decide⟩ (by decide) (by decide) (by decide)

/-- Inputs of the C1 counterexample: only PyMuPDF is available, and its
probe extraction yields short text, so step 1 declines. -/
def analyzePymupdfOnlyEnv : AnalyzeEnv :=
  { engines_available := fun e => e == ProcessingEngine.PYMUPDF,
    extract_pdf := some (Except.ok "short".toList), zotero_client := false,
    zotero_item_key := none, zotero_tags := Except.ok [] }

/-- C1 counterexample: an engine (PyMuPDF) is available and steps 1–3 yield
no route, yet `analyze_document` returns the degenerate confidence-0.0
route, not a confidence-0.50 route — `_get_last_resort_route` skips
PyMuPDF. -/
theorem analyze_document_only_pymupdf_counterexample :
    analyzePymupdfOnlyEnv.engines_available .PYMUPDF = true ∧
    analyze_document analyzePymupdfOnlyEnv =
      { engine := .PYMUPDF, confidence := 0,
        reason := ERROR_NO_ENGINE_AVAILABLE } := by
  constructor
  · decide
  · rfl

end Dispatcher

namespace Dispatcher

open Py

/-- C2 (amended): `Dispatcher.process_document` never propagates an engine
exception — every engine error value becomes a `success := false` result
carrying the exception text — and for the PyMuPDF, Tesseract and Mathpix
engines `success = true` iff the returned text has non-empty trimmed form.
For Nougat the original claim fails: `success` mirrors the processor's own
flag and the markdown is not checked for emptiness
(`process_document_nougat_empty_counterexample`), so `success = true` iff
the import worked, a processor was created, and `process_pdf` reported
success — even with empty markdown. -/
theorem process_document_wraps_and_success_iff (env : ProcessEnv) :
    (∀ engine, engine ≠ ProcessingEngine.NOUGAT →
      ((process_document env engine).success = true ↔
        stripWs (process_document env engine).text ≠ [])) ∧
    ((process_document env .NOUGAT).success = true ↔
      env.nougat_import_ok = true ∧ env.nougat_processor_available = true ∧
        ∃ d, env.nougat_process = Except.ok d ∧ d.success = true) ∧
    (∀ e, env.extract_pdf = some (Except.error e) →
      process_document env .PYMUPDF =
        { success := false, text := [], engine_used := .PYMUPDF,
          error_message := some e }) ∧
    (∀ e, env.tesseract_result = Except.error e →
      process_document env .TESSERACT =
        { success := false, text := [], engine_used := .TESSERACT,
          error_message := some e }) ∧
    (env.nougat_import_ok = true → env.nougat_processor_available = true →
      ∀ e, env.nougat_process = Except.error e →
      process_document env .NOUGAT =
        { success := false, text := [], engine_used := .NOUGAT,
          error_message := some e }) := by
  refine ⟨?_, ?_, ?_, ?_, ?_⟩
  · intro engine hne
    cases engine with
    | PYMUPDF =>
      simp only [process_document, processWithPymupdf]
      cases hx : env.extract_pdf with
      | none => simp [stripWs_nil]
      | some res =>
        cases res with
        | error e => simp [stripWs_nil]
        | ok text => simp [List.isEmpty_iff]
    | TESSERACT =>
      simp only [process_document, processWithTesseract]
      cases hx : env.tesseract_result with
      | error e => simp [stripWs_nil]
      | ok text => simp [List.isEmpty_iff]
    | NOUGAT => exact absurd rfl hne
    | MATHPIX =>
      simp only [process_document, processWithMathpix]
      simp [stripWs, strip, lstrip, rstrip]
  · simp only [process_document, processWithNougat]
    by_cases hi : env.nougat_import_ok
    · by_cases hp : env.nougat_processor_available
      · simp only [hi, hp, Bool.not_true, Bool.false_eq_true, if_false]
        cases hx : env.nougat_process with
        | error e => simp
        | ok d =>
          by_cases hs : d.success
          · simp [hs, hi, hp]
          · simp only [hs, Bool.false_eq_true, if_false]
            simp [hs]
      · simp only [hi, hp]
        simp [hp]
    · simp only [hi]
      simp [hi]
  · intro e he
    simp [process_document, processWithPymupdf, he]
  · intro e he
    simp [process_document, processWithTesseract, he]
  · intro hi hp e he
    simp [process_document, processWithNougat, hi, hp, he]

/-- Inputs of the C2 witness: PyMuPDF extraction raises. -/
def processErrorEnv : ProcessEnv :=
  { extract_pdf := some (Except.error "boom"),
    tesseract_result := Except.error "ocr failed",
    nougat_import_ok := true, nougat_import_msg := "",
    nougat_processor_available := true,
    nougat_process := Except.error "nougat crashed" }

/-- Witness for `process_document_wraps_and_success_iff`: a raising engine
is wrapped into a failed result carrying the exception text. -/
theorem process_document_wraps_witness :
    processErrorEnv.extract_pdf = some (Except.error "boom") ∧
    process_document processErrorEnv .PYMUPDF =
      { success := false, text := [], engine_used := .PYMUPDF,
        error_message := some "boom" } :=
  ⟨rfl, (process_document_wraps_and_success_iff processErrorEnv).2.2.1
    "boom" rfl⟩

/-- Inputs of the C2 counterexample: the Nougat processor reports success
with empty markdown. -/
def nougatEmptyEnv : ProcessEnv :=
  { extract_pdf := none, tesseract_result := Except.error "unused",
    nougat_import_ok := true, nougat_import_msg := "",
    nougat_processor_available := true,
    nougat_process := Except.ok
      { success := true, markdown := [], error := none } }

/-- C2 counterexample: `process_document` returns `success = true` although
the returned text's trimmed form is empty — the Nougat branch copies the
processor's `success` flag without checking the markdown. -/
theorem process_document_nougat_empty_counterexample :
    (process_document nougatEmptyEnv .NOUGAT).success = true ∧
    stripWs (process_document nougatEmptyEnv .NOUGAT).text = [] := by
  constructor
  · rfl
  · rfl

end Dispatcher

namespace Duplicates

open Py

/-- A file as seen by src/analysis/duplicates.py: its full path (the key
into the file-system model) and its basename `p.name`. -/
structure PyPath where
  path : String
  name : String
  deriving DecidableEq, Repr

/-- `file_hash`: `fs` models opening/reading the file (`none` = `OSError`,
which the source catches and turns into `None`); `hashFn` models
`hashlib.sha256(...).hexdigest()` (a third-party digest, embedded as an
arbitrary function of the bytes read); only the first `max_bytes` bytes are
hashed (`f.read(max_bytes)`). -/
def file_hash (fs : String → Option (List Nat)) (hashFn : List Nat → String)
    (max_bytes : Nat) (p : PyPath) : Option String :=
  match fs p.path with
  | none => none
  | some bytes => some (hashFn (bytes.take max_bytes))

/-- `hashes.setdefault(h, []).append(p.name)` over an insertion-ordered
dict, modelled as an association list. -/
def setdefaultAppend :
    List (Option String × List String) → Option String → String →
      List (Option String × List String)
  | [], k, v => [(k, [v])]
  | (k0, vs) :: rest, k, v =>
    if k0 = k then (k0, vs ++ [v]) :: rest
    else (k0, vs) :: setdefaultAppend rest k v

/-- `find_duplicate_hashes`: group file names by content hash, then keep
only truthy keys (`if k`: not `None` and not the empty string) with at
least two members. -/
def find_duplicate_hashes (fs : String → Option (List Nat))
    (hashFn : List Nat → String) (files : List PyPath) :
    List (String × List String) :=
  let hashes := files.foldl
    (fun acc p => setdefaultAppend acc (file_hash fs hashFn 200000 p) p.name)
    []
  hashes.filterMap (fun kv =>
    match kv.1 with
    | some k => if k ≠ "" ∧ 1 < kv.2.length then some (k, kv.2) else none
    | none => none)

theorem setdefaultAppend_inv {P : String → Option String → Prop}
    {acc : List (Option String × List String)} {k : Option String}
    {v : String}
    (hacc : ∀ kv ∈ acc, ∀ n ∈ kv.2, P n kv.1) (hv : P v k) :
    ∀ kv ∈ setdefaultAppend acc k v, ∀ n ∈ kv.2, P n kv.1 := by
  induction acc with
  | nil =>
    intro kv hkv n hn
    simp only [setdefaultAppend, List.mem_singleton] at hkv
    subst hkv
    simp only [List.mem_singleton] at hn
    subst hn
    exact hv
  | cons kv0 rest ih =>
    obtain ⟨k0, vs⟩ := kv0
    intro kv hkv n hn
    rw [setdefaultAppend] at hkv
    split at hkv
    · rename_i hk0
      subst hk0
      rcases List.mem_cons.mp hkv with hkv | hkv
      · subst hkv
        rcases List.mem_append.mp hn with hn | hn
        · exact hacc (k0, vs) (by simp) n hn
        · simp only [List.mem_singleton] at hn
          subst hn
          exact hv
      · exact hacc kv (by simp [hkv]) n hn
    · rcases List.mem_cons.mp hkv with hkv | hkv
      · subst hkv
        exact hacc (k0, vs) (by simp) n hn
      · exact ih (fun kv2 h2 => hacc kv2 (by simp [h2])) kv hkv n hn

theorem grouping_inv (fs : String → Option (List Nat))
    (hashFn : List Nat → String) (files : List PyPath) :
    ∀ kv ∈ files.foldl
        (fun acc p =>
          setdefaultAppend acc (file_hash fs hashFn 200000 p) p.name) [],
      ∀ n ∈ kv.2, ∃ p ∈ files, p.name = n ∧
        file_hash fs hashFn 200000 p = kv.1 := by
  have main : ∀ (l : List PyPath) (acc : List (Option String × List String)),
      (∀ kv ∈ acc, ∀ n ∈ kv.2, ∃ p ∈ files, p.name = n ∧
        file_hash fs hashFn 200000 p = kv.1) →
      (∀ p ∈ l, p ∈ files) →
      ∀ kv ∈ l.foldl
          (fun acc p =>
            setdefaultAppend acc (file_hash fs hashFn 200000 p) p.name) acc,
        ∀ n ∈ kv.2, ∃ p ∈ files, p.name = n ∧
          file_hash fs hashFn 200000 p = kv.1 := by
    intro l
    induction l with
    | nil => intro acc hacc _; exact hacc
    | cons p l ih =>
      intro acc hacc hsub
      rw [List.foldl_cons]
      exact ih _
        (setdefaultAppend_inv
          (P := fun n key => ∃ q ∈ files, q.name = n ∧
            file_hash fs hashFn 200000 q = key)
          hacc ⟨p, hsub p (by simp), rfl, rfl⟩)
        (fun q hq => hsub q (by simp [hq]))
  exact main files [] (by simp) (fun p hp => hp)

/-- C10: `file_hash` returns `None` (never raises) when the file cannot be
read, and every group reported by `find_duplicate_hashes` has at least two
members, each of which is the name of a readable input file hashing to the
group key. -/
theorem find_duplicate_hashes_groups (fs : String → Option (List Nat))
    (hashFn : List Nat → String) (files : List PyPath) :
    (∀ p, fs p.path = none → file_hash fs hashFn 200000 p = none) ∧
    ∀ hg ∈ find_duplicate_hashes fs hashFn files,
      2 ≤ hg.2.length ∧
      ∀ n ∈ hg.2, ∃ p ∈ files, p.name = n ∧ fs p.path ≠ none ∧
        file_hash fs hashFn 200000 p = some hg.1 := by
  constructor
  · intro p hp
    simp [file_hash, hp]
  · intro hg hhg
    unfold find_duplicate_hashes at hhg
    rw [List.mem_filterMap] at hhg
    obtain ⟨kv, hkv, hmap⟩ := hhg
    have hinv := grouping_inv fs hashFn files kv hkv
    cases hk : kv.1 with
    | none => rw [hk] at hmap; cases hmap
    | some k =>
      rw [hk] at hmap
      dsimp only at hmap
      split at hmap
      · rename_i hcond
        injection hmap with hmap
        subst hmap
        refine ⟨by dsimp only; omega, ?_⟩
        intro n hn
        obtain ⟨p, hp, hn1, hn2⟩ := hinv n hn
        refine ⟨p, hp, hn1, ?_, by rw [hn2, hk]⟩
        intro hnone
        rw [file_hash, hnone] at hn2
        rw [hk] at hn2
        cases hn2
      · cases hmap

end Duplicates

namespace Duplicates

open Py

/-- Helper for `splitWs`: structural scan carrying the (reversed) token
being accumulated. -/
def splitWsAcc : List Char → List Char → List (List Char)
  | [], acc => if acc.isEmpty then [] else [acc.reverse]
  | c :: t, acc =>
    if isSpace c then
      if acc.isEmpty then splitWsAcc t [] else acc.reverse :: splitWsAcc t []
    else splitWsAcc t (c :: acc)

/-- Python `str.split()` (split on whitespace runs, no empty tokens). -/
def splitWs (l : List Char) : List (List Char) := splitWsAcc l []

/-- Python string `<` (lexicographic by code point). -/
def listCharLt : List Char → List Char → Bool
  | [], [] => false
  | [], _ :: _ => true
  | _ :: _, [] => false
  | a :: as, b :: bs =>
    if a.val < b.val then true
    else if b.val < a.val then false
    else listCharLt as bs

/-- `sorted(tokens)` followed by `" ".join(...)`: the token-sort
normalisation step of rapidfuzz's `fuzz.token_sort_ratio`. -/
def tokenSortNormalize (s : List Char) : List Char :=
  List.intercalate [' ']
    ((splitWs s).insertionSort (fun a b => listCharLt b a = false))

/-- Helper for `lcsLen`: structural recursion on a fuel counter; every
recursive step shortens the two lists by at least one character in total,
so the fuel `len a + len b` used by `lcsLen` is never exhausted. -/
def lcsLenF : Nat → List Char → List Char → Nat
  | 0, _, _ => 0
  | _ + 1, [], _ => 0
  | _ + 1, _, [] => 0
  | f + 1, a :: as, b :: bs =>
    if a = b then 1 + lcsLenF f as bs
    else max (lcsLenF f (a :: as) bs) (lcsLenF f as (b :: bs))

/-- Length of a longest common subsequence. -/
def lcsLen (a b : List Char) : Nat := lcsLenF (a.length + b.length) a b

/-- rapidfuzz `fuzz.ratio` (the name avoids a reserved suffix): the
normalised indel similarity scaled to 0–100, i.e.
`100 * (1 - dist/(len1+len2))` with `dist = len1+len2-2*lcs`; rapidfuzz
defines the score of two empty strings as 100.  rapidfuzz returns a float;
the values are embedded exactly in `ℚ`. -/
def indelScore (a b : List Char) : ℚ :=
  if a.length + b.length = 0 then 100
  else 100 * (2 * lcsLen a b) / (a.length + b.length)

/-- rapidfuzz `fuzz.token_sort_ratio` (the name avoids a reserved
suffix). -/
def tokenSortScore (a b : List Char) : ℚ :=
  indelScore (tokenSortNormalize a) (tokenSortNormalize b)

/-- rapidfuzz `process.extract(query, choices, scorer=token_sort_ratio,
limit)`: every choice is scored, the `(choice, score, index)` triples are
ordered by score descending (ties keep the original order; rapidfuzz does
not specify the tie order, no claim depends on it) and the first `limit`
are returned.  The default `score_cutoff` of 0 never filters since scores
are non-negative. -/
def extract (query : List Char) (choices : List (List Char)) (limit : Nat) :
    List (List Char × ℚ × Nat) :=
  ((choices.enum.map
    (fun ic => (ic.2, tokenSortScore query ic.2, ic.1))).insertionSort
      (fun x y => y.2.1 ≤ x.2.1)).take limit

/-- `tuple(sorted([name, cand]))`. -/
def pairSorted (a b : List Char) : List Char × List Char :=
  if listCharLt b a then (b, a) else (a, b)

/-- `find_similar_names`: for every name take its five best fuzzy matches,
keep scored pairs at or above the threshold, deduplicate unordered pairs
via the `reported` set, and sort the result by score descending.  The
threshold is Python's `int` compared against float scores; both live in
`ℚ` here. -/
def find_similar_names (names : List (List Char)) (threshold : ℚ) :
    List (ℚ × List Char × List Char) :=
  let final := names.foldl
    (fun st name =>
      (extract name names 5).foldl
        (fun st m =>
          if m.1 = name ∨ m.2.1 < threshold then st
          else
            let pair := pairSorted name m.1
            if pair ∈ st.1 then st
            else (pair :: st.1, st.2 ++ [(m.2.1, pair.1, pair.2)]))
        st)
    ([], [])
  final.2.insertionSort (fun x y => y.1 ≤ x.1)

end Duplicates


namespace Duplicates

open Py

theorem extract_mem {q : List Char} {choices : List (List Char)} {limit : Nat}
    {m : List Char × ℚ × Nat} (h : m ∈ extract q choices limit) :
    m.1 ∈ choices := by
  unfold extract at h
  have h2 := List.take_subset _ _ h
  have h3 := (List.perm_insertionSort _ _).mem_iff.mp h2
  rw [List.mem_map] at h3
  obtain ⟨ic, hic, heq⟩ := h3
  have hsnd : ic.2 ∈ choices.enum.map Prod.snd := List.mem_map_of_mem _ hic
  rw [List.enum_map_snd] at hsnd
  rw [← heq]
  exact hsnd

theorem pairSorted_cases (a b : List Char) :
    pairSorted a b = (a, b) ∨ pairSorted a b = (b, a) := by
  unfold pairSorted
  split
  · right
    rfl
  · left
    rfl

/-- Invariant preserved by the inner fold over one name's match list. -/
theorem innerFold_inv {names : List (List Char)} {threshold : ℚ}
    {name : List Char} (hname : name ∈ names) :
    ∀ (ms : List (List Char × ℚ × Nat))
      (st : List (List Char × List Char) × List (ℚ × List Char × List Char)),
      (∀ m ∈ ms, m.1 ∈ names) →
      ((∀ e ∈ st.2, threshold ≤ e.1 ∧ e.2.1 ≠ e.2.2 ∧ e.2.1 ∈ names ∧
          e.2.2 ∈ names) ∧
        (st.2.map (fun e => e.2)).Nodup ∧ ∀ e ∈ st.2, e.2 ∈ st.1) →
      let st2 := ms.foldl
        (fun st m =>
          if m.1 = name ∨ m.2.1 < threshold then st
          else
            let pair := pairSorted name m.1
            if pair ∈ st.1 then st
            else (pair :: st.1, st.2 ++ [(m.2.1, pair.1, pair.2)]))
        st
      (∀ e ∈ st2.2, threshold ≤ e.1 ∧ e.2.1 ≠ e.2.2 ∧ e.2.1 ∈ names ∧
          e.2.2 ∈ names) ∧
        (st2.2.map (fun e => e.2)).Nodup ∧ ∀ e ∈ st2.2, e.2 ∈ st2.1 := by
  intro ms
  induction ms with
  | nil => intro st _ hst; exact hst
  | cons m ms ih =>
    intro st hms hst
    rw [List.foldl_cons]
    by_cases hcase : m.1 = name ∨ m.2.1 < threshold
    · rw [if_pos hcase]
      exact ih st (fun x hx => hms x (by simp [hx])) hst
    · rw [if_neg hcase]
      push_neg at hcase
      obtain ⟨hne, hth⟩ := hcase
      by_cases hpair : pairSorted name m.1 ∈ st.1
      · rw [if_pos hpair]
        exact ih st (fun x hx => hms x (by simp [hx])) hst
      · rw [if_neg hpair]
        obtain ⟨hsound, hnodup, hsub⟩ := hst
        refine ih _ (fun x hx => hms x (by simp [hx])) ⟨?_, ?_, ?_⟩
        · intro e he
          rcases List.mem_append.mp he with he | he
          · exact hsound e he
          · simp only [List.mem_singleton] at he
            subst he
            have hm1 : m.1 ∈ names := hms m (by simp)
            rcases pairSorted_cases name m.1 with hp | hp <;> rw [hp]
            · exact ⟨hth, fun hh => hne hh.symm, hname, hm1⟩
            · exact ⟨hth, hne, hm1, hname⟩
        · rw [List.map_append]
          simp only [List.map_cons, List.map_nil]
          rw [List.nodup_append]
          refine ⟨hnodup, by simp, ?_⟩
          intro x hx
          simp only [List.mem_singleton]
          intro hxp
          subst hxp
          rw [List.mem_map] at hx
          obtain ⟨e, he, hep⟩ := hx
          have hmem : ((pairSorted name m.1).1, (pairSorted name m.1).2)
              ∈ st.1 := by
            rw [← hep]
            exact hsub e he
          rw [Prod.mk.eta] at hmem
          exact hpair hmem
        · intro e he
          rcases List.mem_append.mp he with he | he
          · exact List.mem_cons_of_mem _ (hsub e he)
          · simp only [List.mem_singleton] at he
            subst he
            exact List.mem_cons_self _ _

/-- Invariant for the outer fold over all names. -/
theorem outerFold_inv (names : List (List Char)) (threshold : ℚ) :
    ∀ (l : List (List Char))
      (st : List (List Char × List Char) × List (ℚ × List Char × List Char)),
      (∀ n ∈ l, n ∈ names) →
      ((∀ e ∈ st.2, threshold ≤ e.1 ∧ e.2.1 ≠ e.2.2 ∧ e.2.1 ∈ names ∧
          e.2.2 ∈ names) ∧
        (st.2.map (fun e => e.2)).Nodup ∧ ∀ e ∈ st.2, e.2 ∈ st.1) →
      let stf := l.foldl
        (fun st name =>
          (extract name names 5).foldl
            (fun st m =>
              if m.1 = name ∨ m.2.1 < threshold then st
              else
                let pair := pairSorted name m.1
                if pair ∈ st.1 then st
                else (pair :: st.1, st.2 ++ [(m.2.1, pair.1, pair.2)]))
            st)
        st
      (∀ e ∈ stf.2, threshold ≤ e.1 ∧ e.2.1 ≠ e.2.2 ∧ e.2.1 ∈ names ∧
          e.2.2 ∈ names) ∧
        (stf.2.map (fun e => e.2)).Nodup ∧ ∀ e ∈ stf.2, e.2 ∈ stf.1 := by
  intro l
  induction l with
  | nil => intro st _ hst; exact hst
  | cons name l ih =>
    intro st hl hst
    rw [List.foldl_cons]
    exact ih _ (fun n hn => hl n (by simp [hn]))
      (innerFold_inv (hl name (by simp)) (extract name names 5) st
        (fun m hm => extract_mem hm) hst)

/-- C7 (amended): every pair returned by `find_similar_names` scores at or
above the threshold, consists of two distinct names from the input (so no
name is ever paired with itself), each unordered pair appears at most once,
and the result is sorted by score descending.  Completeness fails as the
original claim states it: each name only contributes its five best matches,
see `find_similar_names_limit_counterexample`. -/
theorem find_similar_names_sound (names : List (List Char)) (threshold : ℚ) :
    (∀ e ∈ find_similar_names names threshold,
      threshold ≤ e.1 ∧ e.2.1 ≠ e.2.2 ∧ e.2.1 ∈ names ∧ e.2.2 ∈ names) ∧
    ((find_similar_names names threshold).map (fun e => e.2)).Nodup ∧
    List.Sorted (fun x y : ℚ × List Char × List Char => y.1 ≤ x.1)
      (find_similar_names names threshold) := by
  have hinv := outerFold_inv names threshold names ([], [])
    (fun n hn => hn) (by simp)
  set final := names.foldl
    (fun st name =>
      (extract name names 5).foldl
        (fun st m =>
          if m.1 = name ∨ m.2.1 < threshold then st
          else
            let pair := pairSorted name m.1
            if pair ∈ st.1 then st
            else (pair :: st.1, st.2 ++ [(m.2.1, pair.1, pair.2)]))
        st)
    ([], []) with hfinal
  obtain ⟨hsound, hnodup, _⟩ := hinv
  have hperm : (find_similar_names names threshold).Perm final.2 := by
    unfold find_similar_names
    rw [← hfinal]
    exact List.perm_insertionSort _ _
  refine ⟨?_, ?_, ?_⟩
  · intro e he
    exact hsound e (hperm.mem_iff.mp he)
  · exact ((hperm.map (fun e => e.2)).nodup_iff).mpr hnodup
  · haveI : IsTotal (ℚ × List Char × List Char) (fun x y => y.1 ≤ x.1) :=
      ⟨fun a b => le_total b.1 a.1⟩
    haveI : IsTrans (ℚ × List Char × List Char) (fun x y => y.1 ≤ x.1) :=
      ⟨fun _ _ _ hab hbc => le_trans hbc hab⟩
    have hs := List.sorted_insertionSort
      (fun x y : ℚ × List Char × List Char => y.1 ≤ x.1) final.2
    unfold find_similar_names
    rw [← hfinal]
    exact hs

/-- Twelve distinct permutations of the same five tokens: every pair scores
exactly 100. -/
def permNames : List (List Char) :=
  ["a b c d e", "a b c e d", "a b d c e", "a b d e c", "a b e c d",
   "a b e d c", "a c b d e", "a c b e d", "a c d b e", "a c d e b",
   "a c e b d", "a c e d b"].map (fun s => s.toList)

/-- C7 counterexample: with twelve mutually-similar names (every pair
scores 100 ≥ threshold 90), the pair
(`"a b e d c"`, `"a c b d e"`) is a qualifying unordered pair of distinct
input names, yet it is absent from the output — `process.extract` is called
with `limit=5`, so each name only contributes its five best matches and
pairs outside both endpoints' top-five lists are dropped. -/
theorem find_similar_names_limit_counterexample :
    tokenSortScore "a b e d c".toList "a c b d e".toList = 100 ∧
    (90 : ℚ) ≤ 100 ∧
    "a b e d c".toList ∈ permNames ∧ "a c b d e".toList ∈ permNames ∧
    ∀ e ∈ find_similar_names permNames 90,
      e.2 ≠ ("a b e d c".toList, "a c b d e".toList) ∧
      e.2 ≠ ("a c b d e".toList, "a b e d c".toList) := by
  set_option maxRecDepth 8000 in decide

end Duplicates

namespace Formulas

open Py

/-! `hashlib.md5` (third-party, used by `hash_formula` in
src/formulas/extract.py), implemented bit-for-bit from RFC 1321 on `Nat`
with explicit reduction modulo `2^32`.  Everything is structurally
recursive so that digests evaluate inside the kernel; the concrete theorem
below checks the implementation against a digest computed by `hashlib`. -/

/-- The 64 constants `floor(abs(sin(i+1)) * 2^32)`. -/
def md5K : List Nat :=
  [0xd76aa478, 0xe8c7b756, 0x242070db, 0xc1bdceee, 0xf57c0faf, 0x4787c62a,
   0xa8304613, 0xfd469501, 0x698098d8, 0x8b44f7af, 0xffff5bb1, 0x895cd7be,
   0x6b901122, 0xfd987193, 0xa679438e, 0x49b40821, 0xf61e2562, 0xc040b340,
   0x265e5a51, 0xe9b6c7aa, 0xd62f105d, 0x02441453, 0xd8a1e681, 0xe7d3fbc8,
   0x21e1cde6, 0xc33707d6, 0xf4d50d87, 0x455a14ed, 0xa9e3e905, 0xfcefa3f8,
   0x676f02d9, 0x8d2a4c8a, 0xfffa3942, 0x8771f681, 0x6d9d6122, 0xfde5380c,
   0xa4beea44, 0x4bdecfa9, 0xf6bb4b60, 0xbebfbc70, 0x289b7ec6, 0xeaa127fa,
   0xd4ef3085, 0x04881d05, 0xd9d4d039, 0xe6db99e5, 0x1fa27cf8, 0xc4ac5665,
   0xf4292244, 0x432aff97, 0xab9423a7, 0xfc93a039, 0x655b59c3, 0x8f0ccc92,
   0xffeff47d, 0x85845dd1, 0x6fa87e4f, 0xfe2ce6e0, 0xa3014314, 0x4e0811a1,
   0xf7537e82, 0xbd3af235, 0x2ad7d2bb, 0xeb86d391]

/-- The per-round left-rotation amounts. -/
def md5S : List Nat :=
  [7, 12, 17, 22, 7, 12, 17, 22, 7, 12, 17, 22, 7, 12, 17, 22,
   5, 9, 14, 20, 5, 9, 14, 20, 5, 9, 14, 20, 5, 9, 14, 20,
   4, 11, 16, 23, 4, 11, 16, 23, 4, 11, 16, 23, 4, 11, 16, 23,
   6, 10, 15, 21, 6, 10, 15, 21, 6, 10, 15, 21, 6, 10, 15, 21]

def mask32 (x : Nat) : Nat := x % 4294967296

/-- 32-bit left rotation. -/
def rotl32 (x s : Nat) : Nat := mask32 ((x <<< s) ||| (x >>> (32 - s)))

/-- UTF-8 encoding of one character (`str.encode("utf-8")`). -/
def utf8EncodeChar (c : Char) : List Nat :=
  let n := c.toNat
  if n < 0x80 then [n]
  else if n < 0x800 then
    [0xC0 ||| (n >>> 6), 0x80 ||| (n &&& 0x3F)]
  else if n < 0x10000 then
    [0xE0 ||| (n >>> 12), 0x80 ||| ((n >>> 6) &&& 0x3F), 0x80 ||| (n &&& 0x3F)]
  else
    [0xF0 ||| (n >>> 18), 0x80 ||| ((n >>> 12) &&& 0x3F),
     0x80 ||| ((n >>> 6) &&& 0x3F), 0x80 ||| (n &&& 0x3F)]

def utf8Bytes (s : List Char) : List Nat := (s.map utf8EncodeChar).join

/-- A 32-bit word as four little-endian bytes. -/
def wordLE (w : Nat) : List Nat :=
  [w % 256, w / 256 % 256, w / 65536 % 256, w / 16777216 % 256]

/-- MD5 padding: a 0x80 byte, zeros to 56 mod 64, and the bit length as a
64-bit little-endian quantity. -/
def md5Pad (m : List Nat) : List Nat :=
  let L := m.length
  let k := (119 - L % 64) % 64
  m ++ [0x80] ++ List.replicate k 0 ++
    (List.range 8).map (fun i => (8 * L) >>> (8 * i) % 18446744073709551616 % 256)

/-- The sixteen message words of one 64-byte block (little-endian). -/
def blockWords (block : List Nat) : List Nat :=
  (List.range 16).map (fun i =>
    block.getD (4 * i) 0 + 256 * block.getD (4 * i + 1) 0 +
      65536 * block.getD (4 * i + 2) 0 + 16777216 * block.getD (4 * i + 3) 0)

/-- One of the 64 MD5 operations. -/
def md5Op (M : List Nat) (st : Nat × Nat × Nat × Nat) (i : Nat) :
    Nat × Nat × Nat × Nat :=
  let A := st.1
  let B := st.2.1
  let C := st.2.2.1
  let D := st.2.2.2
  let F :=
    if i < 16 then (B &&& C) ||| ((4294967295 ^^^ B) &&& D)
    else if i < 32 then (D &&& B) ||| ((4294967295 ^^^ D) &&& C)
    else if i < 48 then B ^^^ C ^^^ D
    else C ^^^ (B ||| (4294967295 ^^^ D))
  let g :=
    if i < 16 then i
    else if i < 32 then (5 * i + 1) % 16
    else if i < 48 then (3 * i + 5) % 16
    else (7 * i) % 16
  let Fv := mask32 (F + A + md5K.getD i 0 + M.getD g 0)
  (D, mask32 (B + rotl32 Fv (md5S.getD i 0)), B, C)

/-- Process one 64-byte block. -/
def md5Block (st : Nat × Nat × Nat × Nat) (block : List Nat) :
    Nat × Nat × Nat × Nat :=
  let M := blockWords block
  let r := (List.range 64).foldl (md5Op M) st
  (mask32 (st.1 + r.1), mask32 (st.2.1 + r.2.1), mask32 (st.2.2.1 + r.2.2.1),
    mask32 (st.2.2.2 + r.2.2.2))

/-- Split the padded message into 64-byte blocks (fuel-structural; the fuel
`l.length` is enough since every step consumes 64 bytes). -/
def chunks64F : Nat → List Nat → List (List Nat)
  | 0, _ => []
  | _ + 1, [] => []
  | f + 1, l => l.take 64 :: chunks64F f (l.drop 64)

def chunks64 (l : List Nat) : List (List Nat) := chunks64F l.length l

def md5DigestBytes (m : List Nat) : List Nat :=
  let st := (chunks64 (md5Pad m)).foldl md5Block
    (0x67452301, 0xefcdab89, 0x98badcfe, 0x10325476)
  wordLE st.1 ++ wordLE st.2.1 ++ wordLE st.2.2.1 ++ wordLE st.2.2.2

def toHexDigit (n : Nat) : Char :=
  if n < 10 then Char.ofNat (48 + n) else Char.ofNat (87 + n)

def byteHex (b : Nat) : List Char := [toHexDigit (b / 16), toHexDigit (b % 16)]

/-- `hashlib.md5(bytes).hexdigest()`. -/
def md5HexChars (m : List Nat) : List Char :=
  ((md5DigestBytes m).map byteHex).join

end Formulas


namespace Formulas

open Py

/-- `norm_formula` helper: `re.sub(r"\s+", " ", ·)` — collapse every
maximal whitespace run to a single space (the Boolean tracks whether the
previous character was part of a run). -/
def collapseWsAux : Bool → List Char → List Char
  | _, [] => []
  | inRun, c :: t =>
    if isSpace c then
      if inRun then collapseWsAux true t else ' ' :: collapseWsAux true t
    else c :: collapseWsAux false t

/-- `norm_formula`: strip, then collapse internal whitespace runs. -/
def norm_formula (latex : List Char) : List Char :=
  collapseWsAux false (stripWs latex)

/-- `hash_formula`: the first 12 hex characters of the MD5 digest of the
UTF-8 encoded formula. -/
def hash_formula (latex : List Char) : List Char :=
  (md5HexChars (utf8Bytes latex)).take 12

/-- `pathlib.Path.stem`: the file name without its last suffix (a leading
dot does not start a suffix). -/
def stem (n : List Char) : List Char :=
  match findSub n.reverse ['.'] with
  | none => n
  | some j =>
    if j + 1 = n.length then n
    else n.take (n.length - 1 - j)

/-- One fragment of a scanned document: a literal character, or the body of
one regex match. -/
inductive Piece where
  | lit (c : Char)
  | mat (body : List Char)
  deriving DecidableEq, Repr

/-- First index of `"$$"` in a list. -/
def findDD : List Char → Option Nat
  | [] => none
  | '$' :: '$' :: _ => some 0
  | _ :: t => (findDD t).map (· + 1)

/-- `FORMULA_BLOCK = re.compile(r"\$\$(.+?)\$\$", re.DOTALL)` scanning as
`re.sub` performs it: at each position try a match (opening `"$$"`, shortest
non-empty body, closing `"$$"` — the body index is searched from 1 so the
body has at least one character); on success continue after the match,
otherwise move one character.  Fuel-structural: each step consumes at least
one character, so the fuel `l.length` used by `blockPass` never runs out. -/
def blockPassF : Nat → List Char → List Piece
  | 0, _ => []
  | _ + 1, [] => []
  | f + 1, '$' :: '$' :: t =>
    match findDD (t.drop 1) with
    | some j => .mat (t.take (j + 1)) :: blockPassF f (t.drop (j + 3))
    | none => .lit '$' :: blockPassF f ('$' :: t)
  | f + 1, c :: t => .lit c :: blockPassF f t

def blockPass (l : List Char) : List Piece := blockPassF l.length l

/-- Closing-`$` search for `FORMULA_INLINE = (?<!\$)\$(.+?)\$(?!\$)`:
given the text after an opening `$`, the smallest index `k ≥ 1` whose
character is `$` not followed by another `$`, with no newline before it
(`.` does not match a newline without `re.DOTALL`). -/
def findInlineClose : List Char → Nat → Option Nat
  | [], _ => none
  | c :: rest, i =>
    if c = '$' ∧ 1 ≤ i ∧ rest.head? ≠ some '$' then some i
    else if c = '\n' then none
    else findInlineClose rest (i + 1)

/-- The inline-formula pass over the block-replaced text; `prev` carries the
preceding character of the subject for the `(?<!\$)` look-behind. -/
def inlinePassF : Nat → Option Char → List Char → List Piece
  | 0, _, _ => []
  | _ + 1, _, [] => []
  | f + 1, prev, '$' :: t =>
    if prev = some '$' then .lit '$' :: inlinePassF f (some '$') t
    else
      match findInlineClose t 0 with
      | some k => .mat (t.take k) :: inlinePassF f (some '$') (t.drop (k + 1))
      | none => .lit '$' :: inlinePassF f (some '$') t
  | f + 1, _, c :: t => .lit c :: inlinePassF f (some c) t

def inlinePass (l : List Char) : List Piece := inlinePassF l.length none l

/-- `f"FORMULA_{formula_hash}"`. -/
def placeholder (body : List Char) : List Char :=
  "FORMULA_".toList ++ hash_formula (norm_formula body)

/-- Substitution result of one pass: literals kept, every match replaced by
its wrapped placeholder (`replace_block` wraps in newlines,
`replace_inline` in spaces). -/
def renderPieces (wrap : List Char → List Char) : List Piece → List Char
  | [] => []
  | .lit c :: ps => c :: renderPieces wrap ps
  | .mat b :: ps => wrap (placeholder b) ++ renderPieces wrap ps

def blockWrap (ph : List Char) : List Char := '\n' :: ph ++ ['\n']

def inlineWrap (ph : List Char) : List Char := ' ' :: ph ++ [' ']

/-- The match bodies of a pass, in match order. -/
def matBodies (ps : List Piece) : List (List Char) :=
  ps.filterMap (fun p => match p with | .mat b => some b | .lit _ => none)

/-- One catalog record (`type` is the source's dict key for the kind). -/
structure FormulaRecord where
  doc_id : List Char
  hash : List Char
  type : List Char
  latex : List Char
  source : List Char
  deriving DecidableEq, Repr

/-- The `(formula_hash, doc_id, kind)` dedup key of `register_formula`. -/
def recKey (r : FormulaRecord) : List Char × List Char × List Char :=
  (r.hash, r.doc_id, r.type)

/-- The key an occurrence `(kind, raw_body)` will register under. -/
def occKey (doc_id : List Char) (kb : List Char × List Char) :
    List Char × List Char × List Char :=
  (hash_formula (norm_formula kb.2), doc_id, kb.1)

/-- One `register_formula` call on the occurrence `kb = (kind, raw_body)`:
record the entry unless deduplication is on and the `(hash, doc_id, kind)`
key is already in `seen` (the first state component). -/
def regStep (doc_id source : List Char) (dedup : Bool)
    (st : List (List Char × List Char × List Char) × List FormulaRecord)
    (kb : List Char × List Char) :
    List (List Char × List Char × List Char) × List FormulaRecord :=
  if !dedup ∨ (hash_formula (norm_formula kb.2), doc_id, kb.1) ∉ st.1 then
    ((hash_formula (norm_formula kb.2), doc_id, kb.1) :: st.1,
      st.2 ++ [{ doc_id := doc_id, hash := hash_formula (norm_formula kb.2),
                 type := kb.1, latex := norm_formula kb.2, source := source }])
  else st

/-- `register_formula`, folded over all occurrences (kind, raw body) in
registration order. -/
def registerAll (doc_id source : List Char) (dedup : Bool)
    (occs : List (List Char × List Char)) : List FormulaRecord :=
  (occs.foldl (regStep doc_id source dedup) ([], [])).2

/-- The occurrences of a document in registration order: all block matches
(the block pass runs first), then all inline matches found on the
block-replaced text. -/
def occurrences (text : List Char) : List (List Char × List Char) :=
  (matBodies (blockPass text)).map (fun b => ("block".toList, b)) ++
    (matBodies (inlinePass (renderPieces blockWrap (blockPass text)))).map
      (fun b => ("inline".toList, b))

/-- `extract_formulas_from_md`: the processed text (all occurrences replaced
by placeholders) and the catalog records. -/
def extract_formulas_from_md (mdName text : List Char) (dedup : Bool) :
    List Char × List FormulaRecord :=
  (renderPieces inlineWrap (inlinePass (renderPieces blockWrap (blockPass text))),
    registerAll (stem mdName) mdName dedup (occurrences text))

end Formulas

namespace Formulas

theorem wordLE_lt (w : Nat) : ∀ b ∈ wordLE w, b < 256 := by
  intro b hb
  simp only [wordLE, List.mem_cons, List.not_mem_nil, or_false] at hb
  rcases hb with h | h | h | h <;> omega

theorem md5DigestBytes_lt (m : List Nat) :
    ∀ b ∈ md5DigestBytes m, b < 256 := by
  intro b hb
  simp only [md5DigestBytes, List.mem_append] at hb
  rcases hb with ((h | h) | h) | h <;> exact wordLE_lt _ _ h

theorem md5DigestBytes_length (m : List Nat) :
    (md5DigestBytes m).length = 16 := by
  simp [md5DigestBytes, wordLE]

theorem byteHex_join_length (l : List Nat) :
    ((l.map byteHex).join).length = 2 * l.length := by
  induction l with
  | nil => rfl
  | cons b t ih => simp [byteHex, ih]; omega

theorem md5HexChars_length (m : List Nat) : (md5HexChars m).length = 32 := by
  rw [md5HexChars, byteHex_join_length, md5DigestBytes_length]

theorem toHexDigit_hex :
    ∀ n < 16, toHexDigit n ∈ "0123456789abcdef".toList := by decide

theorem md5HexChars_hex (m : List Nat) :
    ∀ c ∈ md5HexChars m, c ∈ "0123456789abcdef".toList := by
  intro c hc
  rw [md5HexChars] at hc
  rw [List.mem_join] at hc
  obtain ⟨l, hl, hcl⟩ := hc
  rw [List.mem_map] at hl
  obtain ⟨b, hb, rfl⟩ := hl
  have hb256 := md5DigestBytes_lt m b hb
  simp only [byteHex, List.mem_cons, List.not_mem_nil, or_false] at hcl
  rcases hcl with rfl | rfl
  · exact toHexDigit_hex (b / 16) (by omega)
  · exact toHexDigit_hex (b % 16) (by omega)

/-- The hash is always exactly twelve characters long. -/
theorem hash_formula_length (l : List Char) : (hash_formula l).length = 12 := by
  simp [hash_formula, List.length_take, md5HexChars_length]

/-- The hash consists of lowercase hexadecimal digits. -/
theorem hash_formula_hex (l : List Char) :
    ∀ c ∈ hash_formula l, c ∈ "0123456789abcdef".toList := by
  intro c hc
  exact md5HexChars_hex _ c (List.mem_of_mem_take hc)

/-- Registration fold invariant under deduplication: the recorded keys are
exactly the reversed `seen` list, `seen` stays duplicate-free, and `seen`
collects exactly the keys of the processed occurrences. -/
theorem regFold_true_inv (d s : List Char) :
    ∀ (occs : List (List Char × List Char))
      (st : List (List Char × List Char × List Char) × List FormulaRecord),
      st.2.map recKey = st.1.reverse → st.1.Nodup →
      ((occs.foldl (regStep d s true) st).2.map recKey =
          (occs.foldl (regStep d s true) st).1.reverse ∧
        (occs.foldl (regStep d s true) st).1.Nodup ∧
        ∀ k, k ∈ (occs.foldl (regStep d s true) st).1 ↔
          k ∈ st.1 ∨ k ∈ occs.map (occKey d))
  | [], st, h1, h2 => ⟨h1, h2, fun k => by simp⟩
  | kb :: occs, st, h1, h2 => by
    rw [List.foldl_cons, List.map_cons]
    by_cases hk : (hash_formula (norm_formula kb.2), d, kb.1) ∈ st.1
    · have hstep : regStep d s true st kb = st := by
        simp [regStep, hk]
      rw [hstep]
      obtain ⟨g1, g2, g3⟩ := regFold_true_inv d s occs st h1 h2
      refine ⟨g1, g2, fun k => ?_⟩
      rw [g3 k]
      simp only [List.mem_cons]
      constructor
      · rintro (h | h)
        · exact Or.inl h
        · exact Or.inr (Or.inr h)
      · rintro (h | rfl | h)
        · exact Or.inl h
        · exact Or.inl hk
        · exact Or.inr h
    · have hstep : regStep d s true st kb =
          ((hash_formula (norm_formula kb.2), d, kb.1) :: st.1,
            st.2 ++ [FormulaRecord.mk d (hash_formula (norm_formula kb.2))
              kb.1 (norm_formula kb.2) s]) := by
        simp [regStep, hk]
      rw [hstep]
      have h1' : (st.2 ++ [FormulaRecord.mk d
            (hash_formula (norm_formula kb.2)) kb.1 (norm_formula kb.2)
            s]).map recKey =
          ((hash_formula (norm_formula kb.2), d, kb.1) :: st.1).reverse := by
        simp [recKey, h1]
      have h2' : ((hash_formula (norm_formula kb.2), d, kb.1) ::
          st.1).Nodup := List.nodup_cons.mpr ⟨hk, h2⟩
      obtain ⟨g1, g2, g3⟩ := regFold_true_inv d s occs
        ((hash_formula (norm_formula kb.2), d, kb.1) :: st.1,
          st.2 ++ [FormulaRecord.mk d (hash_formula (norm_formula kb.2))
            kb.1 (norm_formula kb.2) s]) h1' h2'
      refine ⟨g1, g2, fun k => ?_⟩
      rw [g3 k]
      simp only [List.mem_cons, occKey]
      tauto

/-- Every record produced by the registration fold stores the hash of its
own normalised latex body, in any deduplication mode. -/
theorem regFold_fields (d s : List Char) (dedup : Bool) :
    ∀ (occs : List (List Char × List Char))
      (st : List (List Char × List Char × List Char) × List FormulaRecord),
      (∀ r ∈ st.2, r.hash = hash_formula r.latex) →
      ∀ r ∈ (occs.foldl (regStep d s dedup) st).2,
        r.hash = hash_formula r.latex
  | [], _, h => h
  | kb :: occs, st, h => by
    rw [List.foldl_cons]
    apply regFold_fields d s dedup occs
    intro r hr
    rw [regStep] at hr
    split at hr
    · simp only [List.mem_append, List.mem_singleton] at hr
      rcases hr with hr | rfl
      · exact h r hr
      · rfl
    · exact h r hr

end Formulas

namespace Formulas

set_option maxRecDepth 200000 in
/-- C4: with deduplication on, `extract_formulas_from_md` records exactly one
catalog entry per distinct `(hash, doc_id, kind)` triple — the recorded keys
are duplicate-free and are exactly the keys of the matched occurrences — while
the placeholder-substituted output text is the same as without deduplication
(so every occurrence is still replaced, deduplication only affects the
catalog); every record's hash is the deterministic 12-hex-character digest of
its normalised latex body; a document with the same body once as a block and
once as an inline formula yields two records of the two kinds sharing one
hash; and a document repeating one block formula twice yields a single record
but placeholders at both occurrences. -/
theorem extract_formulas_from_md_dedup (mdName text : List Char) :
    (((extract_formulas_from_md mdName text true).2.map recKey).Nodup ∧
      ∀ k, k ∈ (extract_formulas_from_md mdName text true).2.map recKey ↔
        k ∈ (occurrences text).map (occKey (stem mdName))) ∧
    (extract_formulas_from_md mdName text true).1 =
      (extract_formulas_from_md mdName text false).1 ∧
    (∀ r ∈ (extract_formulas_from_md mdName text true).2,
      r.hash = hash_formula r.latex ∧ r.hash.length = 12 ∧
        ∀ c ∈ r.hash, c ∈ "0123456789abcdef".toList) ∧
    (extract_formulas_from_md "doc1.md".toList
        "$$x^2+y^2=1$$\n$x^2+y^2=1$".toList true).2.map
        (fun r => (r.type, r.hash)) =
      [("block".toList, "dd116045e15c".toList),
        ("inline".toList, "dd116045e15c".toList)] ∧
    (extract_formulas_from_md "doc2.md".toList
        "$$a$$ and $$a$$".toList true).2.length = 1 ∧
    (extract_formulas_from_md "doc2.md".toList
        "$$a$$ and $$a$$".toList true).1 =
      "\nFORMULA_0cc175b9c0f1\n and \nFORMULA_0cc175b9c0f1\n".toList := by
  obtain ⟨g1, g2, g3⟩ := regFold_true_inv (stem mdName) mdName
    (occurrences text) ([], []) rfl List.nodup_nil
  have hfields := regFold_fields (stem mdName) mdName true
    (occurrences text) ([], []) (fun r h => absurd h (List.not_mem_nil r))
  refine ⟨⟨?_, ?_⟩, rfl, ?_, by decide, by decide, by decide⟩
  · show ((registerAll (stem mdName) mdName true
        (occurrences text)).map recKey).Nodup
    rw [registerAll, g1]
    exact List.nodup_reverse.mpr g2
  · intro k
    show k ∈ (registerAll (stem mdName) mdName true
        (occurrences text)).map recKey ↔ _
    rw [registerAll, g1, List.mem_reverse, g3 k]
    simp
  · intro r hr
    have hh := hfields r hr
    exact ⟨hh, by rw [hh]; exact hash_formula_length _,
      by rw [hh]; exact hash_formula_hex _⟩

end Formulas

namespace Formulas

/-- A flat file system for the extraction batch: an association list from
`(directory, file name)` to file contents; a write removes every entry of
that key and appends the new one. -/
def FS : Type := List ((List Char × List Char) × List Char)

def fsWrite (fs : FS) (k : List Char × List Char) (v : List Char) : FS :=
  (List.filter (fun e => decide (e.1 ≠ k)) fs) ++ [(k, v)]

def fsRead (fs : FS) (k : List Char × List Char) : Option (List Char) :=
  (List.find? (fun e => decide (e.1 = k)) fs).map (fun e => e.2)

/-- `path.glob("*" ++ suf)` membership test on a key. -/
def globMatch (dir suf : List Char) (k : List Char × List Char) : Bool :=
  decide (k.1 = dir) && suf.isSuffixOf k.2

/-- `sorted(path.glob("*" ++ suf))`: the matching names, each once, in
ascending string order (all live in one directory, so path order is name
order). -/
def globSorted (fs : FS) (dir suf : List Char) : List (List Char) :=
  List.insertionSort (fun a b => Duplicates.listCharLt b a = false)
    (((List.filter (fun e => globMatch dir suf e.1) fs).map
        (fun e => e.1.2)).dedup)

/-- `_iter_markdown_files`: the sorted `*.md` names followed by the sorted
`*.mmd` names. -/
def iterMarkdownFiles (fs : FS) (dir : List Char) : List (List Char) :=
  globSorted fs dir ".md".toList ++ globSorted fs dir ".mmd".toList

/-- One character under `json.dumps(..., ensure_ascii=False)` string
escaping: the two-character escapes of the C escape table, `\u00XX` for the
remaining control characters, everything else verbatim. -/
def jsonEscapeChar (c : Char) : List Char :=
  if c = '\\' then ['\\', '\\']
  else if c = '"' then ['\\', '"']
  else if c = Char.ofNat 8 then ['\\', 'b']
  else if c = Char.ofNat 12 then ['\\', 'f']
  else if c = '\n' then ['\\', 'n']
  else if c = '\r' then ['\\', 'r']
  else if c = '\t' then ['\\', 't']
  else if c.toNat < 32 then '\\' :: 'u' :: '0' :: '0' :: byteHex c.toNat
  else [c]

def jsonStr (s : List Char) : List Char :=
  '"' :: (s.map jsonEscapeChar).join ++ ['"']

/-- `json.dumps(row, ensure_ascii=False)` for one catalog row (dict keys in
insertion order, default separators). -/
def recordJson (r : FormulaRecord) : List Char :=
  "\x7b".toList ++
    jsonStr "doc_id".toList ++ ": ".toList ++ jsonStr r.doc_id ++
    ", ".toList ++ jsonStr "hash".toList ++ ": ".toList ++ jsonStr r.hash ++
    ", ".toList ++ jsonStr "type".toList ++ ": ".toList ++ jsonStr r.type ++
    ", ".toList ++ jsonStr "latex".toList ++ ": ".toList ++ jsonStr r.latex ++
    ", ".toList ++ jsonStr "source".toList ++ ": ".toList ++
    jsonStr r.source ++ "\x7d".toList

/-- The metadata file contents: one JSON line per record, in order. -/
def catalogText (recs : List FormulaRecord) : List Char :=
  (recs.map (fun r => recordJson r ++ ['\n'])).join

/-- The resolved directories/files of `_get_paths` (`metadata_file` is a
full `(directory, name)` key). -/
structure ExtractionPaths where
  markdown_dir : List Char
  text_dir : List Char
  metadata_file : List Char × List Char

/-- One iteration of the `extract_all_formulas` loop on file name `n`:
read the markdown, extract, write the `<stem>.txt` replacement text, and
append this document's rows to the stream. -/
def runStep (p : ExtractionPaths) (dedup : Bool)
    (st : FS × List FormulaRecord) (n : List Char) : FS × List FormulaRecord :=
  let text := (fsRead st.1 (p.markdown_dir, n)).getD []
  let res := extract_formulas_from_md n text dedup
  (fsWrite st.1 (p.text_dir, stem n ++ ".txt".toList) res.1, st.2 ++ res.2)

/-- `extract_all_formulas`: list the markdown files, truncate the metadata
file (`open("w")` happens before the loop), process each file in order, and
leave the metadata file holding all streamed rows. -/
def extract_all_formulas (p : ExtractionPaths) (dedup : Bool) (fs : FS) :
    FS :=
  let files := iterMarkdownFiles fs p.markdown_dir
  let st := files.foldl (runStep p dedup) (fsWrite fs p.metadata_file [], [])
  fsWrite st.1 p.metadata_file (catalogText st.2)

end Formulas

namespace Formulas

/-- Demo batch for the idempotency witness: two markdown files, separate
text/metadata locations. -/
def demoBatchPaths : ExtractionPaths :=
  { markdown_dir := "md".toList, text_dir := "txt".toList,
    metadata_file := ("meta".toList, "formulas.jsonl".toList) }

def demoBatchFS : FS :=
  [(("md".toList, "b.md".toList), "$x$".toList),
   (("md".toList, "a.md".toList), "$$y$$".toList)]

theorem fsRead_fsWrite_eq (fs : FS) (k : List Char × List Char)
    (v : List Char) : fsRead (fsWrite fs k v) k = some v := by
  induction fs with
  | nil => simp [fsRead, fsWrite, List.find?]
  | cons e t ih =>
    by_cases he : e.1 = k
    · simpa [fsWrite, fsRead, he] using ih
    · simpa [fsWrite, fsRead, List.find?, he] using ih

theorem fsRead_fsWrite_ne (fs : FS) (k k' : List Char × List Char)
    (v : List Char) (h : k' ≠ k) :
    fsRead (fsWrite fs k v) k' = fsRead fs k' := by
  have hk : (decide (k = k') : Bool) = false :=
    decide_eq_false fun hk => h hk.symm
  have hpq : (fun a : (List Char × List Char) × List Char =>
      !decide (a.1 = k) && decide (a.1 = k')) =
      fun a : (List Char × List Char) × List Char => decide (a.1 = k') := by
    funext a
    by_cases ha : a.1 = k'
    · have hak : ¬ a.1 = k := by rw [ha]; exact h
      simp [ha, hak]
      exact h
    · simp [ha]
  simp [fsRead, fsWrite, hk, hpq]

theorem filter_fsWrite (q : List Char × List Char → Bool)
    (k : List Char × List Char) (v : List Char) (hq : q k = false)
    (fs : FS) :
    (fsWrite fs k v).filter (fun e => q e.1) = fs.filter (fun e => q e.1) := by
  have hpq : (fun a : (List Char × List Char) × List Char =>
      q a.1 && !decide (a.1 = k)) =
      fun a : (List Char × List Char) × List Char => q a.1 := by
    funext a
    by_cases ha : a.1 = k
    · rw [ha, hq]; simp
    · simp [ha]
  simp [fsWrite, hq, hpq]

theorem md_not_suffixOf_txt (s : List Char) :
    (".md".toList).isSuffixOf (s ++ ".txt".toList) = false := by
  have h1 : ".md".toList = ['.', 'm', 'd'] := rfl
  have h2 : ".txt".toList = ['.', 't', 'x', 't'] := rfl
  rw [h1, h2, List.isSuffixOf, List.reverse_append]
  simp [List.isPrefixOf]

theorem mmd_not_suffixOf_txt (s : List Char) :
    (".mmd".toList).isSuffixOf (s ++ ".txt".toList) = false := by
  have h1 : ".mmd".toList = ['.', 'm', 'm', 'd'] := rfl
  have h2 : ".txt".toList = ['.', 't', 'x', 't'] := rfl
  rw [h1, h2, List.isSuffixOf, List.reverse_append]
  simp [List.isPrefixOf]

/-- A markdown name (ending in `.md` or `.mmd`) is never a produced text
name (ending in `.txt`). -/
theorem mdName_ne_txtName (n m : List Char)
    (hn : (".md".toList).isSuffixOf n = true ∨
      (".mmd".toList).isSuffixOf n = true) :
    n ≠ stem m ++ ".txt".toList := by
  intro he
  rcases hn with h | h
  · rw [he, md_not_suffixOf_txt] at h
    exact Bool.false_ne_true h
  · rw [he, mmd_not_suffixOf_txt] at h
    exact Bool.false_ne_true h

theorem mem_globSorted (fs : FS) (dir suf n : List Char)
    (h : n ∈ globSorted fs dir suf) : suf.isSuffixOf n = true := by
  rw [globSorted] at h
  have h2 := (List.perm_insertionSort
    (fun a b => Duplicates.listCharLt b a = false) _).mem_iff.mp h
  rw [List.mem_dedup, List.mem_map] at h2
  obtain ⟨e, he, rfl⟩ := h2
  have h3 := (List.mem_filter.mp he).2
  simp only [globMatch, Bool.and_eq_true, decide_eq_true_eq] at h3
  exact h3.2

theorem mem_iterMarkdownFiles (fs : FS) (dir n : List Char)
    (h : n ∈ iterMarkdownFiles fs dir) :
    (".md".toList).isSuffixOf n = true ∨
      (".mmd".toList).isSuffixOf n = true := by
  rw [iterMarkdownFiles, List.mem_append] at h
  rcases h with h | h
  · exact Or.inl (mem_globSorted fs dir _ n h)
  · exact Or.inr (mem_globSorted fs dir _ n h)

end Formulas

namespace Formulas

/-- The batch loop never touches a markdown key: it only writes `.txt`
files. -/
theorem foldl_runStep_fsRead (p : ExtractionPaths) (dedup : Bool)
    (n : List Char)
    (hn : (".md".toList).isSuffixOf n = true ∨
      (".mmd".toList).isSuffixOf n = true) :
    ∀ (files : List (List Char)) (st : FS × List FormulaRecord),
      fsRead ((files.foldl (runStep p dedup) st).1) (p.markdown_dir, n) =
        fsRead st.1 (p.markdown_dir, n)
  | [], _ => rfl
  | m :: files, st => by
    rw [List.foldl_cons, foldl_runStep_fsRead p dedup n hn files _]
    show fsRead (fsWrite st.1 (p.text_dir, stem m ++ ".txt".toList) _)
        (p.markdown_dir, n) = _
    apply fsRead_fsWrite_ne
    intro he
    exact mdName_ne_txtName n m hn (congrArg Prod.snd he)

/-- The batch loop leaves every glob-style filter of the file system alone
whenever the filter rejects `.txt` names. -/
theorem foldl_runStep_filter (p : ExtractionPaths) (dedup : Bool)
    (q : List Char × List Char → Bool)
    (hq : ∀ m, q (p.text_dir, stem m ++ ".txt".toList) = false) :
    ∀ (files : List (List Char)) (st : FS × List FormulaRecord),
      ((files.foldl (runStep p dedup) st).1).filter (fun e => q e.1) =
        (st.1).filter (fun e => q e.1)
  | [], _ => rfl
  | m :: files, st => by
    rw [List.foldl_cons, foldl_runStep_filter p dedup q hq files _]
    show (fsWrite st.1 (p.text_dir, stem m ++ ".txt".toList) _).filter
        (fun e => q e.1) = _
    exact filter_fsWrite q _ _ (hq m) st.1

/-- If two file systems agree on every markdown key, the batch loop
produces the same record stream from both. -/
theorem foldl_runStep_rows (p : ExtractionPaths) (dedup : Bool) :
    ∀ (files : List (List Char)) (fs₁ fs₂ : FS) (acc : List FormulaRecord),
      (∀ n ∈ files, (".md".toList).isSuffixOf n = true ∨
        (".mmd".toList).isSuffixOf n = true) →
      (∀ n, (".md".toList).isSuffixOf n = true ∨
          (".mmd".toList).isSuffixOf n = true →
        fsRead fs₁ (p.markdown_dir, n) = fsRead fs₂ (p.markdown_dir, n)) →
      (files.foldl (runStep p dedup) (fs₁, acc)).2 =
        (files.foldl (runStep p dedup) (fs₂, acc)).2
  | [], _, _, _, _, _ => rfl
  | m :: files, fs₁, fs₂, acc, hf, hR => by
    have hm := hf m (List.mem_cons_self m files)
    have htext : fsRead fs₁ (p.markdown_dir, m) =
        fsRead fs₂ (p.markdown_dir, m) := hR m hm
    rw [List.foldl_cons, List.foldl_cons]
    show (List.foldl (runStep p dedup) (fsWrite fs₁
        (p.text_dir, stem m ++ ".txt".toList)
        (extract_formulas_from_md m
          ((fsRead fs₁ (p.markdown_dir, m)).getD []) dedup).1,
        acc ++ (extract_formulas_from_md m
          ((fsRead fs₁ (p.markdown_dir, m)).getD []) dedup).2) files).2 = _
    rw [htext]
    apply foldl_runStep_rows p dedup files _ _ _
      (fun n hn => hf n (List.mem_cons_of_mem m hn))
    intro n hn
    rw [fsRead_fsWrite_ne _ _ _ _
        (fun he => mdName_ne_txtName n m hn (congrArg Prod.snd he)),
      fsRead_fsWrite_ne _ _ _ _
        (fun he => mdName_ne_txtName n m hn (congrArg Prod.snd he))]
    exact hR n hn

end Formulas

namespace Formulas

/-- Under the safety hypothesis the metadata key is never a markdown key. -/
theorem mdKey_ne_meta (p : ExtractionPaths)
    (hsafe : p.metadata_file.1 ≠ p.markdown_dir ∨
      ((".md".toList).isSuffixOf p.metadata_file.2 = false ∧
        (".mmd".toList).isSuffixOf p.metadata_file.2 = false))
    (n : List Char)
    (hn : (".md".toList).isSuffixOf n = true ∨
      (".mmd".toList).isSuffixOf n = true) :
    (p.markdown_dir, n) ≠ p.metadata_file := by
  intro he
  rcases hsafe with h | ⟨h1, h2⟩
  · exact h (congrArg Prod.fst he).symm
  · have hn2 : n = p.metadata_file.2 := congrArg Prod.snd he
    rcases hn with hn | hn
    · rw [hn2, h1] at hn
      exact Bool.false_ne_true hn
    · rw [hn2, h2] at hn
      exact Bool.false_ne_true hn

theorem run_fsRead_md (p : ExtractionPaths) (dedup : Bool) (fs : FS)
    (hsafe : p.metadata_file.1 ≠ p.markdown_dir ∨
      ((".md".toList).isSuffixOf p.metadata_file.2 = false ∧
        (".mmd".toList).isSuffixOf p.metadata_file.2 = false))
    (n : List Char)
    (hn : (".md".toList).isSuffixOf n = true ∨
      (".mmd".toList).isSuffixOf n = true) :
    fsRead (extract_all_formulas p dedup fs) (p.markdown_dir, n) =
      fsRead fs (p.markdown_dir, n) := by
  show fsRead (fsWrite ((iterMarkdownFiles fs p.markdown_dir).foldl
      (runStep p dedup) (fsWrite fs p.metadata_file [], [])).1
      p.metadata_file
      (catalogText ((iterMarkdownFiles fs p.markdown_dir).foldl
        (runStep p dedup) (fsWrite fs p.metadata_file [], [])).2))
      (p.markdown_dir, n) = fsRead fs (p.markdown_dir, n)
  rw [fsRead_fsWrite_ne _ _ _ _ (mdKey_ne_meta p hsafe n hn),
    foldl_runStep_fsRead p dedup n hn _ _,
    fsRead_fsWrite_ne _ _ _ _ (mdKey_ne_meta p hsafe n hn)]

theorem run_filter (p : ExtractionPaths) (dedup : Bool) (fs : FS)
    (q : List Char × List Char → Bool)
    (hmeta : q p.metadata_file = false)
    (htxt : ∀ m, q (p.text_dir, stem m ++ ".txt".toList) = false) :
    (extract_all_formulas p dedup fs).filter (fun e => q e.1) =
      fs.filter (fun e => q e.1) := by
  show (fsWrite ((iterMarkdownFiles fs p.markdown_dir).foldl
      (runStep p dedup) (fsWrite fs p.metadata_file [], [])).1
      p.metadata_file
      (catalogText ((iterMarkdownFiles fs p.markdown_dir).foldl
        (runStep p dedup) (fsWrite fs p.metadata_file [], [])).2)).filter
      (fun e => q e.1) = fs.filter (fun e => q e.1)
  rw [filter_fsWrite _ _ _ hmeta, foldl_runStep_filter p dedup q htxt,
    filter_fsWrite _ _ _ hmeta]

/-- A batch run never changes the set of markdown inputs: the second run
lists exactly the same files. -/
theorem run_iterMarkdownFiles (p : ExtractionPaths) (dedup : Bool) (fs : FS)
    (hsafe : p.metadata_file.1 ≠ p.markdown_dir ∨
      ((".md".toList).isSuffixOf p.metadata_file.2 = false ∧
        (".mmd".toList).isSuffixOf p.metadata_file.2 = false)) :
    iterMarkdownFiles (extract_all_formulas p dedup fs) p.markdown_dir =
      iterMarkdownFiles fs p.markdown_dir := by
  have hmd : globMatch p.markdown_dir ".md".toList p.metadata_file = false := by
    rcases hsafe with h | ⟨h1, h2⟩
    · simp [globMatch, h]
    · simp [globMatch]
      exact fun _ => h1
  have hmmd : globMatch p.markdown_dir ".mmd".toList p.metadata_file = false := by
    rcases hsafe with h | ⟨h1, h2⟩
    · simp [globMatch, h]
    · simp [globMatch]
      exact fun _ => h2
  have htmd : ∀ m, globMatch p.markdown_dir ".md".toList
      (p.text_dir, stem m ++ ".txt".toList) = false := by
    intro m
    simp [globMatch]
    exact fun _ => md_not_suffixOf_txt (stem m)
  have htmmd : ∀ m, globMatch p.markdown_dir ".mmd".toList
      (p.text_dir, stem m ++ ".txt".toList) = false := by
    intro m
    simp [globMatch]
    exact fun _ => mmd_not_suffixOf_txt (stem m)
  rw [iterMarkdownFiles, iterMarkdownFiles, globSorted, globSorted,
    globSorted, globSorted, run_filter p dedup fs _ hmd htmd,
    run_filter p dedup fs _ hmmd htmmd]

end Formulas

namespace Formulas

set_option maxRecDepth 100000 in
/-- C5: `extract_all_formulas` is idempotent — the metadata catalog is
rewritten from scratch on every run and the inputs are visited in a fixed
sorted order, so a second run over the unchanged markdown set leaves the
catalog byte-identical; the hypothesis states that the configured metadata
file is not itself one of the markdown inputs (as in the default layout,
where it lives in a separate directory).  On the demo batch the catalog is
the concrete two-line JSON log, matching `json.dumps` byte for byte. -/
theorem extract_all_formulas_idempotent (p : ExtractionPaths) (dedup : Bool)
    (fs : FS)
    (hsafe : p.metadata_file.1 ≠ p.markdown_dir ∨
      ((".md".toList).isSuffixOf p.metadata_file.2 = false ∧
        (".mmd".toList).isSuffixOf p.metadata_file.2 = false)) :
    fsRead (extract_all_formulas p dedup (extract_all_formulas p dedup fs))
        p.metadata_file =
      fsRead (extract_all_formulas p dedup fs) p.metadata_file ∧
    fsRead (extract_all_formulas demoBatchPaths true demoBatchFS)
        demoBatchPaths.metadata_file =
      some ("\x7b\"doc_id\": \"a\", \"hash\": \"415290769594\", \"type\": \"block\", \"latex\": \"y\", \"source\": \"a.md\"\x7d\n\x7b\"doc_id\": \"b\", \"hash\": \"9dd4e461268c\", \"type\": \"inline\", \"latex\": \"x\", \"source\": \"b.md\"\x7d\n").toList := by
  constructor
  · have hrows :
        ((iterMarkdownFiles (extract_all_formulas p dedup fs)
          p.markdown_dir).foldl (runStep p dedup)
          (fsWrite (extract_all_formulas p dedup fs) p.metadata_file [],
            [])).2 =
        ((iterMarkdownFiles fs p.markdown_dir).foldl (runStep p dedup)
          (fsWrite fs p.metadata_file [], [])).2 := by
      rw [run_iterMarkdownFiles p dedup fs hsafe]
      apply foldl_runStep_rows p dedup _ _ _ _
        (fun n hn => mem_iterMarkdownFiles fs p.markdown_dir n hn)
      intro n hn
      rw [fsRead_fsWrite_ne _ _ _ _ (mdKey_ne_meta p hsafe n hn),
        fsRead_fsWrite_ne _ _ _ _ (mdKey_ne_meta p hsafe n hn)]
      exact run_fsRead_md p dedup fs hsafe n hn
    show fsRead (fsWrite ((iterMarkdownFiles (extract_all_formulas p dedup fs)
        p.markdown_dir).foldl (runStep p dedup)
        (fsWrite (extract_all_formulas p dedup fs) p.metadata_file [],
          [])).1
        p.metadata_file
        (catalogText ((iterMarkdownFiles (extract_all_formulas p dedup fs)
          p.markdown_dir).foldl (runStep p dedup)
          (fsWrite (extract_all_formulas p dedup fs) p.metadata_file [],
            [])).2))
        p.metadata_file =
      fsRead (fsWrite ((iterMarkdownFiles fs p.markdown_dir).foldl
        (runStep p dedup) (fsWrite fs p.metadata_file [], [])).1
        p.metadata_file
        (catalogText ((iterMarkdownFiles fs p.markdown_dir).foldl
          (runStep p dedup) (fsWrite fs p.metadata_file [], [])).2))
        p.metadata_file
    rw [fsRead_fsWrite_eq, fsRead_fsWrite_eq, hrows]
  · decide

set_option maxRecDepth 100000 in
/-- Witness for the idempotency theorem at the demo batch: the hypothesis
holds (the metadata directory differs from the markdown directory) and the
second run reproduces the catalog of the first. -/
theorem extract_all_formulas_idempotent_witness :
    (demoBatchPaths.metadata_file.1 ≠ demoBatchPaths.markdown_dir ∨
      ((".md".toList).isSuffixOf demoBatchPaths.metadata_file.2 = false ∧
        (".mmd".toList).isSuffixOf demoBatchPaths.metadata_file.2 = false)) ∧
    fsRead (extract_all_formulas demoBatchPaths true
        (extract_all_formulas demoBatchPaths true demoBatchFS))
        demoBatchPaths.metadata_file =
      fsRead (extract_all_formulas demoBatchPaths true demoBatchFS)
        demoBatchPaths.metadata_file :=
  ⟨Or.inl (by decide),
    (extract_all_formulas_idempotent demoBatchPaths true demoBatchFS
      (Or.inl (by decide))).1⟩

end Formulas

namespace Formulas

/-- ASCII letter test of the regex class `[A-Za-z]`. -/
def isAsciiAlpha (c : Char) : Bool :=
  decide (('A' ≤ c ∧ c ≤ 'Z') ∨ ('a' ≤ c ∧ c ≤ 'z'))

/-- The single-character alternative `[=+\-*/^_{}]` of `TOKEN_PATTERN`. -/
def structTokenChars : List Char :=
  ['=', '+', '-', '*', '/', '^', '_', '\x7b', '\x7d']

/-- `TOKEN_PATTERN.findall` scanning: at each position try `[A-Za-z]+`,
then `\\[A-Za-z]+`, then one structural character, else advance one
character.  Fuel-structural; each step consumes at least one character, so
fuel `l.length` suffices. -/
def tokenizeF : Nat → List Char → List (List Char)
  | 0, _ => []
  | _ + 1, [] => []
  | f + 1, c :: t =>
    if isAsciiAlpha c then
      (c :: t.takeWhile isAsciiAlpha) :: tokenizeF f (t.dropWhile isAsciiAlpha)
    else if c = '\\' && (match t with
        | c2 :: _ => isAsciiAlpha c2
        | [] => false) then
      (c :: t.takeWhile isAsciiAlpha) :: tokenizeF f (t.dropWhile isAsciiAlpha)
    else if c ∈ structTokenChars then
      [c] :: tokenizeF f t
    else tokenizeF f t

/-- `tokenize_latex`: the searchable tokens of a LaTeX body. -/
def tokenize_latex (l : List Char) : List (List Char) := tokenizeF l.length l

/-- The formula index: `formulas` rows in insertion order (the AUTOINCREMENT
id of row `i` is `i + 1`) and the `tokens` table as `(token, formula_id)`
pairs. -/
structure IndexDB where
  formulas : List FormulaRecord
  tokens : List (List Char × Nat)

/-- `SELECT ... FROM formulas WHERE id = fid` (ids are 1-based). -/
def dbFormula (db : IndexDB) (fid : Nat) : Option FormulaRecord :=
  db.formulas.get? (fid - 1)

/-- `SELECT latex, doc_id, type, source FROM formulas WHERE hash = ?` with
`fetchone()`: the first row carrying the hash, in id order. -/
def firstByHash (db : IndexDB) (h : List Char) : Option FormulaRecord :=
  db.formulas.find? (fun r => decide (r.hash = h))

/-- `SELECT DISTINCT f.hash FROM tokens t JOIN formulas f ON f.id =
t.formula_id WHERE t.token = ?`, collected into the `hashes` set (modelled
as a duplicate-free list in first-seen order; the search results below only
depend on it through membership and emptiness). -/
def symbolHashes (db : IndexDB) (symbol : List Char) : List (List Char) :=
  ((db.tokens.filter (fun tk => decide (tk.1 = symbol))).filterMap
    (fun tk => (dbFormula db tk.2).map (fun r => r.hash))).dedup

/-- Python truthiness of an optional string (`if symbol:`): not `None` and
non-empty. -/
def truthy : Option (List Char) → Bool
  | none => false
  | some s => !s.isEmpty

/-- The full-catalog pattern loop: append each matching row and break once
`len(results) >= limit` after an append. -/
def fullScanGo (pat : List Char)
    (research : List Char → List Char → Bool) (limit : Nat) :
    List FormulaRecord → Nat → List FormulaRecord
  | [], _ => []
  | r :: rows, count =>
    if research pat r.latex then
      if limit ≤ count + 1 then [r]
      else r :: fullScanGo pat research limit rows (count + 1)
    else fullScanGo pat research limit rows count

/-- `search_formulas(symbol, contains, limit)`.  `research` is the
`re.compile(contains).search` test, passed as a function so the embedding
is parametric in the regex engine. -/
def search_formulas (db : IndexDB)
    (research : List Char → List Char → Bool)
    (symbol contains : Option (List Char)) (limit : Nat) :
    List FormulaRecord :=
  let hashes : List (List Char) :=
    if truthy symbol then symbolHashes db (symbol.getD []) else []
  let results : List FormulaRecord :=
    if truthy contains then
      if hashes ≠ [] then
        hashes.filterMap (fun h =>
          (firstByHash db h).bind (fun r =>
            if research (contains.getD []) r.latex then some r else none))
      else fullScanGo (contains.getD []) research limit db.formulas 0
    else (hashes.take limit).filterMap (fun h => firstByHash db h)
  results.take limit

/-- `re.search` for a metacharacter-free pattern: substring containment. -/
def literalSearch (pat s : List Char) : Bool := (Py.findSub s pat).isSome

/-- A one-formula index of the body `xyz` (one token row, as
`create_formula_index` would produce). -/
def demoSearchDB : IndexDB :=
  { formulas := [FormulaRecord.mk "doc".toList "h1".toList "inline".toList
      "xyz".toList "f.md".toList],
    tokens := [("xyz".toList, 1)] }

end Formulas

namespace Formulas

/-- Reduction of the combined search (both arguments truthy) to its two
branches. -/
theorem search_formulas_eq (db : IndexDB)
    (research : List Char → List Char → Bool) (s pat : List Char)
    (limit : Nat) (hts : truthy (some s) = true)
    (htp : truthy (some pat) = true) :
    search_formulas db research (some s) (some pat) limit =
      (if symbolHashes db s ≠ [] then
        (symbolHashes db s).filterMap (fun h =>
          (firstByHash db h).bind (fun r =>
            if research pat r.latex then some r else none))
      else fullScanGo pat research limit db.formulas 0).take limit := by
  simp only [search_formulas, hts, htp, if_true, Option.getD_some]

/-- The pattern-only search scans the full catalog. -/
theorem search_formulas_none_eq (db : IndexDB)
    (research : List Char → List Char → Bool) (pat : List Char)
    (limit : Nat) (htp : truthy (some pat) = true) :
    search_formulas db research none (some pat) limit =
      (fullScanGo pat research limit db.formulas 0).take limit := by
  have htp2 : (!pat.isEmpty) = true := htp
  simp only [search_formulas, truthy, htp2, if_true, Bool.false_eq_true,
    if_false, Option.getD_some, ne_eq, not_true_eq_false]

set_option maxRecDepth 2000 in
/-- C6 (amended): in a combined symbol+pattern search, when the symbol
lookup yields candidates, the pattern scan is restricted to them — under a
well-formed index (token rows point at formulas whose tokenisation contains
the token, and the 12-character hash determines the latex body among the
catalog rows), every returned record contains the symbol among its index
tokens and matches the pattern; but when the symbol lookup yields no
candidate, the search falls back to scanning the full catalog (the result
equals the pattern-only search), rather than returning an empty result. -/
theorem search_formulas_symbol_narrowing (db : IndexDB)
    (research : List Char → List Char → Bool) (s pat : List Char)
    (limit : Nat) (hs : s ≠ []) (hp : pat ≠ [])
    (hsound : ∀ tk ∈ db.tokens, ∀ r ∈ db.formulas,
      dbFormula db tk.2 = some r → tk.1 ∈ tokenize_latex r.latex)
    (hhash : ∀ r₁ ∈ db.formulas, ∀ r₂ ∈ db.formulas,
      r₁.hash = r₂.hash → r₁.latex = r₂.latex) :
    (symbolHashes db s ≠ [] →
      ∀ r ∈ search_formulas db research (some s) (some pat) limit,
        s ∈ tokenize_latex r.latex ∧ research pat r.latex = true) ∧
    (symbolHashes db s = [] →
      search_formulas db research (some s) (some pat) limit =
        search_formulas db research none (some pat) limit) := by
  have hts : truthy (some s) = true := by
    cases s with
    | nil => exact absurd rfl hs
    | cons c t => rfl
  have htp : truthy (some pat) = true := by
    cases pat with
    | nil => exact absurd rfl hp
    | cons c t => rfl
  constructor
  · intro hne r hr
    rw [search_formulas_eq db research s pat limit hts htp,
      if_pos hne] at hr
    have hr2 := List.mem_of_mem_take hr
    rw [List.mem_filterMap] at hr2
    obtain ⟨h, hh, hbind⟩ := hr2
    cases hfb : firstByHash db h with
    | none => rw [hfb] at hbind; exact absurd hbind (by simp)
    | some r' =>
      rw [hfb] at hbind
      simp only [Option.some_bind] at hbind
      by_cases hres : research pat r'.latex = true
      · rw [if_pos hres] at hbind
        cases hbind
        have hrmem : r ∈ db.formulas :=
          List.mem_of_find?_eq_some hfb
        have hrhash : r.hash = h := by
          have hpr := List.find?_some hfb
          exact of_decide_eq_true hpr
        rw [symbolHashes, List.mem_dedup, List.mem_filterMap] at hh
        obtain ⟨tk, htkf, hmap⟩ := hh
        rw [Option.map_eq_some'] at hmap
        obtain ⟨r₀, hdb, hr₀hash⟩ := hmap
        have htk := List.mem_filter.mp htkf
        have htks : tk.1 = s := of_decide_eq_true htk.2
        have hr₀mem : r₀ ∈ db.formulas := by
          rw [dbFormula] at hdb
          exact List.get?_mem hdb
        have hstok : s ∈ tokenize_latex r₀.latex := by
          rw [← htks]
          exact hsound tk htk.1 r₀ hr₀mem hdb
        have hlatex : r.latex = r₀.latex :=
          hhash r hrmem r₀ hr₀mem (by rw [hrhash, hr₀hash])
        refine ⟨?_, hres⟩
        rw [hlatex]
        exact hstok
      · rw [if_neg hres] at hbind
        exact absurd hbind (by simp)
  · intro he
    rw [search_formulas_eq db research s pat limit hts htp,
      if_neg (fun hc => hc he),
      search_formulas_none_eq db research pat limit htp]

/-- Witness: a concrete well-formed one-formula index on which the
candidate branch applies; the hypotheses of the narrowing theorem hold by
evaluation. -/
theorem search_formulas_symbol_narrowing_witness :
    ("xyz".toList ≠ ([] : List Char)) ∧
    (symbolHashes demoSearchDB "xyz".toList ≠ [] →
      ∀ r ∈ search_formulas demoSearchDB literalSearch
          (some "xyz".toList) (some "y".toList) 10,
        "xyz".toList ∈ tokenize_latex r.latex ∧
          literalSearch "y".toList r.latex = true) :=
  ⟨by decide,
    (search_formulas_symbol_narrowing demoSearchDB literalSearch
      "xyz".toList "y".toList 10 (by decide) (by decide)
      (by decide) (by decide)).1⟩

/-- C6 counterexample to the original claim: on the demo index the symbol
`q` yields an empty candidate set, yet the combined search with pattern `y`
scans the whole catalog and returns the `xyz` formula — not an empty
result. -/
theorem search_formulas_empty_candidates_counterexample :
    symbolHashes demoSearchDB "q".toList = [] ∧
    search_formulas demoSearchDB literalSearch (some "q".toList)
        (some "y".toList) 10 =
      [FormulaRecord.mk "doc".toList "h1".toList "inline".toList
        "xyz".toList "f.md".toList] := by decide

end Formulas

